import Mathlib

/-!
Verification development for the weighted topology sampler of the bito
project (`src/topology_sampler.cpp`).

The sampler walks a subsplit DAG from a focus node: it climbs rootward
sampling one parent edge at a time, descends leafward on the sibling
clades, accumulates the chosen vertices and lines in a session graph, and
finally rebuilds a standalone bifurcating tree from the discovered root.

The embedding below translates `topology_sampler.cpp` directly.  The
support classes that the sampler uses (the subsplit DAG accessors, the
session's result graph, the mersenne twister and the discrete
distribution) are not part of the sampler's own translation unit; they are
modelled from the specification where noted.  Machine doubles are modelled
as rationals; recursion is made total with an explicit fuel parameter, and
running out of fuel is a distinguished error.
-/

namespace BitoTS

/-- One side of a subsplit (source: `SubsplitClade`). -/
inductive SubsplitClade where
  | left
  | right
deriving DecidableEq, Repr

instance : Fintype SubsplitClade :=
  ⟨⟨{SubsplitClade.left, SubsplitClade.right}, by decide⟩,
   fun x => by cases x <;> decide⟩

/-- Traversal direction tag used by `VisitNode` (source: `Direction`). -/
inductive Direction where
  | rootward
  | leafward
deriving DecidableEq, Repr

/-- Source: `Bitset::Opposite(clade)` — the other side of a subsplit. -/
def Bitset.Opposite : SubsplitClade → SubsplitClade
  | .left => .right
  | .right => .left

/-- The record stored for a DAG edge (source: the `ConstLineView`
accessors `GetParent`, `GetChild`, `GetSubsplitClade`). -/
structure DAGLine where
  parent : Nat
  child : Nat
  clade : SubsplitClade
deriving DecidableEq, Repr

/-- Modelled from the spec: the read-only subsplit DAG.  Nodes are keyed
by stable integer identifiers; per-node and per-clade rootward/leafward
neighbor iteration yields an `(node id, edge id)` pair; each edge id
resolves to a `DAGLine` record; each node carries a subsplit, i.e. a
taxon set per clade.  The DAG class itself is not in the sampler's
translation unit, so its interface is modelled after sections 2, 3 and 6
of the specification. -/
structure SubsplitDAG where
  nodes : List Nat
  rootward : Nat → SubsplitClade → List (Nat × Nat)
  leafward : Nat → SubsplitClade → List (Nat × Nat)
  edges : Nat → DAGLine
  cladeTaxa : Nat → SubsplitClade → Finset Nat
  allTaxa : Finset Nat

/-- The taxon set a node's subsplit covers: the union of its two clades. -/
def taxaOf (dag : SubsplitDAG) (n : Nat) : Finset Nat :=
  dag.cladeTaxa n .left ∪ dag.cladeTaxa n .right

/-- A node with no possible leafward children per the DAG's own topology
(a true leaf); used by `BuildTree` via `DAGVertex::IsLeaf`. -/
def isLeafVertex (dag : SubsplitDAG) (v : Nat) : Prop :=
  dag.leafward v .left = [] ∧ dag.leafward v .right = []

instance (dag : SubsplitDAG) (v : Nat) : Decidable (isLeafVertex dag v) :=
  inferInstanceAs (Decidable (_ ∧ _))

/-- The DAG's designated root: a node with no rootward neighbors on either
clade; used by `BuildTree` via `DAGVertex::IsRoot`. -/
def isRootVertex (dag : SubsplitDAG) (v : Nat) : Prop :=
  dag.rootward v .left = [] ∧ dag.rootward v .right = []

instance (dag : SubsplitDAG) (v : Nat) : Decidable (isRootVertex dag v) :=
  inferInstanceAs (Decidable (_ ∧ _))

/-- A line chosen during traversal (source: the aggregate passed to
`result_.AddLine`: edge id, parent id, child id, subsplit clade). -/
structure Line where
  edge : Nat
  parent : Nat
  child : Nat
  clade : SubsplitClade
deriving DecidableEq, Repr

/-- Modelled from the spec: the session's result graph — the minimal
subgraph (chosen vertices plus chosen lines) accumulated during one
sampling call.  The graph class is not in the sampler's translation unit;
vertices are recorded by node id (the subsplit payload stored alongside is
determined by the id, so it is omitted). -/
structure SampleGraph where
  vertices : List Nat
  lines : List Line
deriving DecidableEq, Repr

/-- Source: `result_.AddVertex` — records a vertex idempotently. -/
def SampleGraph.addVertex (g : SampleGraph) (n : Nat) : SampleGraph :=
  if n ∈ g.vertices then g else ⟨g.vertices ++ [n], g.lines⟩

/-- Source: `result_.AddLine` — appends a chosen line. -/
def SampleGraph.addLine (g : SampleGraph) (l : Line) : SampleGraph :=
  ⟨g.vertices, g.lines ++ [l]⟩

/-- Modelled from the spec: `ConnectAllVertices` materializes the
adjacency of the accumulated subgraph.  In this embedding adjacency is
derived on demand from the line list (`graphNeighbors`), so the
connection pass changes nothing. -/
def ConnectAllVertices (g : SampleGraph) : SampleGraph := g

/-- The leafward neighbors of a vertex in the accumulated subgraph, per
clade (source: `DAGVertex::GetNeighbors(Direction::Leafward, clade)` on
the result graph, read by `BuildTree`). -/
def graphNeighbors (g : SampleGraph) (v : Nat) (k : SubsplitClade) : List Nat :=
  (g.lines.filter (fun l => decide (l.parent = v ∧ l.clade = k))).map Line.child

/-- Number of chosen child lines of `v` on clade `k` in a line list. -/
def childCount (L : List Line) (v : Nat) (k : SubsplitClade) : Nat :=
  L.countP (fun l => decide (l.parent = v ∧ l.clade = k))

/-- Number of chosen parent lines of `v` in a line list. -/
def parentCount (L : List Line) (v : Nat) : Nat :=
  L.countP (fun l => decide (l.child = v))

/-- Modelled from the spec: `result_.FindRoot` — locate the root vertex of
the finished subgraph: the first recorded vertex with no chosen parent
line. -/
def FindRoot (g : SampleGraph) : Option Nat :=
  g.vertices.find? (fun v => g.lines.all (fun l => decide (l.child ≠ v)))

/-- Modelled from the spec: the sampler's own seedable pseudorandom
generator (`mersenne_twister_`).  The engine is abstracted to an integer
state with a deterministic step; `draw` yields a rational in `[0, 1)` and
the advanced state. -/
structure MersenneTwister where
  state : Nat
deriving DecidableEq, Repr

/-- One uniform draw in `[0, 1)` together with the stepped generator. -/
def MersenneTwister.draw (g : MersenneTwister) : ℚ × MersenneTwister :=
  (((g.state % 65536 : Nat) : ℚ) / 65536,
   ⟨(g.state * 48271 + 12345) % 281474976710656⟩)

/-- Source: `TopologySampler::SetSeed` — reseeding replaces the whole
engine state deterministically from the seed alone. -/
def SetSeed (_rng : MersenneTwister) (seed : Nat) : MersenneTwister :=
  ⟨seed⟩

/-- Modelled from the spec: `std::discrete_distribution` — given weights
`ws` and a threshold `t` (a uniform draw scaled by the total weight),
return the first index whose cumulative weight exceeds `t`.  A singleton
pool always yields index `0`. -/
def discretePick : List ℚ → ℚ → Nat
  | [], _ => 0
  | _ :: [], _ => 0
  | w :: w2 :: rest, t =>
    if t < w then 0 else discretePick (w2 :: rest) (t - w) + 1

/-- Source: the `SamplingSession` aggregate — borrowed references to the
DAG and both probability tables for one call (its `result_` graph is
threaded explicitly through the traversal functions below). -/
structure SamplingSession where
  dag : SubsplitDAG
  normalized_sbn_parameters : Nat → ℚ
  inverted_probabilities : Nat → ℚ

/-- Source: `TopologySampler::SampleParentNodeAndEdge` — pool the parent
candidates of both rootward neighbor views, weight each by the inverted
probability of its edge, draw one index, and return the chosen
`(node id, edge id)` pair with the advanced generator. -/
def SampleParentNodeAndEdge (ses : SamplingSession) (rng : MersenneTwister)
    (left right : List (Nat × Nat)) : (Nat × Nat) × MersenneTwister :=
  let weights := (left ++ right).map (fun pr => ses.inverted_probabilities pr.2)
  let dr := rng.draw
  let sampled_index := discretePick weights (dr.1 * weights.sum)
  if sampled_index < left.length then
    (left.getD sampled_index (0, 0), dr.2)
  else
    (right.getD (sampled_index - left.length) (0, 0), dr.2)

/-- Source: `TopologySampler::SampleChildNodeAndEdge` — weight each child
candidate by the normalized probability of its edge and draw one. -/
def SampleChildNodeAndEdge (ses : SamplingSession) (rng : MersenneTwister)
    (neighbors : List (Nat × Nat)) : (Nat × Nat) × MersenneTwister :=
  let weights := neighbors.map (fun ce => ses.normalized_sbn_parameters ce.2)
  let dr := rng.draw
  let i := discretePick weights (dr.1 * weights.sum)
  (neighbors.getD i (0, 0), dr.2)

/-- Traversal failure modes.  `outOfFuel` is the embedding's totality
artifact; the others mirror the fatal exits of the source
(`Failwith "No root found"`, `Failwith "Node can't have only one child"`,
`Assert(left_id != NoId, "Root has no children")`). -/
inductive SErr where
  | outOfFuel
  | noRoot
  | oneChild
  | rootNoChildren
deriving DecidableEq, Repr

instance {ε α : Type _} [DecidableEq ε] [DecidableEq α] :
    DecidableEq (Except ε α) := fun x y =>
  match x, y with
  | .ok a, .ok b =>
    if h : a = b then isTrue (congrArg Except.ok h)
    else isFalse (fun hh => h (Except.ok.inj hh))
  | .ok _, .error _ => isFalse (fun hh => Except.noConfusion hh)
  | .error _, .ok _ => isFalse (fun hh => Except.noConfusion hh)
  | .error e, .error f =>
    if h : e = f then isTrue (congrArg Except.error h)
    else isFalse (fun hh => h (Except.error.inj hh))

mutual

/-- Source: `TopologySampler::VisitNode` — record the node as a vertex,
then dispatch on the arrival direction: a node tagged `Rootward` (reached
while descending) descends leafward on both clades; a node tagged
`Leafward` (reached while climbing) climbs rootward and descends leafward
on the opposite clade from the one just taken. -/
def VisitNode : Nat → SamplingSession → SampleGraph → MersenneTwister →
    Nat → Direction → SubsplitClade → Except SErr (SampleGraph × MersenneTwister)
  | 0, _, _, _, _, _, _ => .error .outOfFuel
  | fuel + 1, ses, g, rng, node, dir, clade =>
    let g1 := g.addVertex node
    match dir with
    | .rootward =>
      match SampleLeafward fuel ses g1 rng node .left with
      | .error e => .error e
      | .ok gr => SampleLeafward fuel ses gr.1 gr.2 node .right
    | .leafward =>
      match SampleRootward fuel ses g1 rng node with
      | .error e => .error e
      | .ok gr => SampleLeafward fuel ses gr.1 gr.2 node (Bitset.Opposite clade)

/-- Source: `TopologySampler::SampleRootward` — if the node has no
rootward neighbors on either clade it is the root: stop.  Otherwise
sample a parent node and edge from the pooled candidates, record the
chosen line, and visit the parent in `Leafward` mode tagged with the
chosen edge's clade. -/
def SampleRootward : Nat → SamplingSession → SampleGraph → MersenneTwister →
    Nat → Except SErr (SampleGraph × MersenneTwister)
  | 0, _, _, _, _ => .error .outOfFuel
  | fuel + 1, ses, g, rng, node =>
    let left := ses.dag.rootward node .left
    let right := ses.dag.rootward node .right
    if left = [] ∧ right = [] then .ok (g, rng)
    else
      let pe := SampleParentNodeAndEdge ses rng left right
      let erec := ses.dag.edges pe.1.2
      let g1 := g.addLine ⟨pe.1.2, erec.parent, erec.child, erec.clade⟩
      VisitNode fuel ses g1 pe.2 pe.1.1 .leafward erec.clade

/-- Source: `TopologySampler::SampleLeafward` — if the node has no
leafward neighbors on the clade it is a leaf on that side: stop.
Otherwise sample a child node and edge, record the chosen line, and visit
the child in `Rootward` mode on the same clade. -/
def SampleLeafward : Nat → SamplingSession → SampleGraph → MersenneTwister →
    Nat → SubsplitClade → Except SErr (SampleGraph × MersenneTwister)
  | 0, _, _, _, _, _ => .error .outOfFuel
  | fuel + 1, ses, g, rng, node, clade =>
    let neighbors := ses.dag.leafward node clade
    if neighbors = [] then .ok (g, rng)
    else
      let ce := SampleChildNodeAndEdge ses rng neighbors
      let erec := ses.dag.edges ce.1.2
      let g1 := g.addLine ⟨ce.1.2, erec.parent, erec.child, erec.clade⟩
      VisitNode fuel ses g1 ce.2 ce.1.1 .rootward clade

end

/-- The standalone tree value (source: `Node` with `Node::Leaf`,
binary `Node::Join` and the single-child root `Node::Join`). -/
inductive SNode where
  | leaf (id : Nat)
  | join (l : SNode) (r : SNode) (id : Nat)
  | join1 (child : SNode) (id : Nat)
deriving DecidableEq, Repr

/-- The leaf ids of a standalone tree, left to right. -/
def SNode.leaves : SNode → List Nat
  | .leaf i => [i]
  | .join l r _ => l.leaves ++ r.leaves
  | .join1 c _ => c.leaves

/-- Source: `TopologySampler::BuildTree` — rebuild the tree bottom-up
from a vertex of the finished subgraph: two discovered children join
under an internal node; a true leaf becomes a leaf; the designated root
with a single discovered left child wraps it; anything else is fatal. -/
def BuildTree : Nat → SubsplitDAG → SampleGraph → Nat → Except SErr SNode
  | 0, _, _, _ => .error .outOfFuel
  | fuel + 1, dag, g, v =>
    let left := graphNeighbors g v .left
    let right := graphNeighbors g v .right
    match left.head?, right.head? with
    | some lid, some rid =>
      match BuildTree fuel dag g lid, BuildTree fuel dag g rid with
      | .ok lt, .ok rt => .ok (.join lt rt v)
      | .error e, _ => .error e
      | _, .error e => .error e
    | lh, _ =>
      if isLeafVertex dag v then .ok (.leaf v)
      else if isRootVertex dag v then
        match lh with
        | some lid =>
          match BuildTree fuel dag g lid with
          | .ok lt => .ok (.join1 lt v)
          | .error e => .error e
        | none => .error .rootNoChildren
      else .error .oneChild

/-- The traversal phase of `TopologySampler::Sample` (source lines 10-13):
record the focus vertex, climb rootward from it, then descend leafward on
both of its clades. -/
def RunTraversal (fuel : Nat) (ses : SamplingSession) (node : Nat)
    (rng : MersenneTwister) : Except SErr (SampleGraph × MersenneTwister) :=
  let g0 := (SampleGraph.mk [] []).addVertex node
  match SampleRootward fuel ses g0 rng node with
  | .error e => .error e
  | .ok gr1 =>
    match SampleLeafward fuel ses gr1.1 gr1.2 node .left with
    | .error e => .error e
    | .ok gr2 => SampleLeafward fuel ses gr2.1 gr2.2 node .right

/-- Source: `TopologySampler::Sample` — run the traversal, connect the
accumulated vertices, locate the root of the finished subgraph (failing
fatally when none exists), and rebuild the standalone tree from it. -/
def Sample (fuel : Nat) (node : Nat) (dag : SubsplitDAG)
    (normalized inverted : Nat → ℚ) (rng : MersenneTwister) :
    Except SErr (SNode × MersenneTwister) :=
  match RunTraversal fuel ⟨dag, normalized, inverted⟩ node rng with
  | .error e => .error e
  | .ok gr =>
    let g := ConnectAllVertices gr.1
    match FindRoot g with
    | none => .error .noRoot
    | some root =>
      match BuildTree fuel dag g root with
      | .error e => .error e
      | .ok t => .ok (t, gr.2)

/-- One queued invocation of `Sample` (the DAG, the focus node and both
probability tables). -/
structure SampleCall where
  fuel : Nat
  node : Nat
  dag : SubsplitDAG
  normalized : Nat → ℚ
  inverted : Nat → ℚ

/-- A sequence of `Sample` calls against one sampler instance, threading
the generator state from call to call as the member `mersenne_twister_`
does. -/
def SampleSequence (rng : MersenneTwister) :
    List SampleCall → List (Except SErr SNode)
  | [] => []
  | c :: cs =>
    match Sample c.fuel c.node c.dag c.normalized c.inverted rng with
    | .ok tr => .ok tr.1 :: SampleSequence tr.2 cs
    | .error e => .error e :: SampleSequence rng cs

/-- The dispatcher behavior the specification paragraph ascribes to
`VisitNode`, taken at its word: a node arrived at while climbing
(arrived-from-leafward mode) continues descending leafward on both
clades; a node arrived at while descending (arrived-from-rootward mode)
continues climbing rootward and descending on the opposite clade.  This
definition follows the claim's wording and is compared against the code's
`VisitNode` above. -/
def VisitNodeClaimed : Nat → SamplingSession → SampleGraph → MersenneTwister →
    Nat → Direction → SubsplitClade → Except SErr (SampleGraph × MersenneTwister)
  | 0, _, _, _, _, _, _ => .error .outOfFuel
  | fuel + 1, ses, g, rng, node, dir, clade =>
    let g1 := g.addVertex node
    match dir with
    | .leafward =>
      match SampleLeafward fuel ses g1 rng node .left with
      | .error e => .error e
      | .ok gr => SampleLeafward fuel ses gr.1 gr.2 node .right
    | .rootward =>
      match SampleRootward fuel ses g1 rng node with
      | .error e => .error e
      | .ok gr => SampleLeafward fuel ses gr.1 gr.2 node (Bitset.Opposite clade)

/-- Well-formedness of a subsplit DAG, following sections 2, 3 and the
glossary of the specification: neighbor views are closed over the node
set and coherent with the edge records (symmetric between the rootward
and leafward views); an edge's child covers exactly the parent clade it
instantiates; the two clades of a subsplit are disjoint; a leaf's taxon
set is the singleton of its own id (leaves are the taxon-indexed nodes);
a non-leaf has leafward neighbors exactly on its nonempty clades; an
internal non-root node has two nonempty clades; a root node covers the
whole taxon universe. -/
def WF (dag : SubsplitDAG) : Prop :=
  (∀ n ∈ dag.nodes, ∀ k : SubsplitClade, ∀ pr ∈ dag.rootward n k,
      pr.1 ∈ dag.nodes ∧ dag.edges pr.2 = ⟨pr.1, n, k⟩ ∧
        (n, pr.2) ∈ dag.leafward pr.1 k) ∧
  (∀ n ∈ dag.nodes, ∀ k : SubsplitClade, ∀ ce ∈ dag.leafward n k,
      ce.1 ∈ dag.nodes ∧ dag.edges ce.2 = ⟨n, ce.1, k⟩ ∧
        taxaOf dag ce.1 = dag.cladeTaxa n k ∧
        ((n, ce.2) ∈ dag.rootward ce.1 .left ∨ (n, ce.2) ∈ dag.rootward ce.1 .right)) ∧
  (∀ n ∈ dag.nodes, Disjoint (dag.cladeTaxa n .left) (dag.cladeTaxa n .right)) ∧
  (∀ n ∈ dag.nodes, isLeafVertex dag n → taxaOf dag n = {n}) ∧
  (∀ n ∈ dag.nodes, ¬isLeafVertex dag n →
      ∀ k, dag.leafward n k = [] ↔ dag.cladeTaxa n k = ∅) ∧
  (∀ n ∈ dag.nodes, ¬isLeafVertex dag n → ¬isRootVertex dag n →
      dag.cladeTaxa n .left ≠ ∅ ∧ dag.cladeTaxa n .right ≠ ∅) ∧
  (∀ n ∈ dag.nodes, isRootVertex dag n → taxaOf dag n = dag.allTaxa)

/-- Indicator for the number of child lines a fully expanded vertex ends
up with on one clade: one when the DAG offers leafward neighbors there,
zero when it does not. -/
def indC (dag : SubsplitDAG) (v : Nat) (j : SubsplitClade) : Nat :=
  if dag.leafward v j = [] then 0 else 1

/-- Shared precondition of the traversal contracts: the accumulated
vertex list has no duplicates and stays inside the DAG's node set. -/
def PreShared (dag : SubsplitDAG) (g : SampleGraph) : Prop :=
  g.vertices.Nodup ∧ ∀ v ∈ g.vertices, v ∈ dag.nodes

/-- Common shape of every traversal contract's postcondition: vertices
and lines only grow by fresh, duplicate-free suffixes inside the node
set, and every new line is a recorded DAG edge whose child is newly
visited (or, for the climb's first line, the call's own node, passed in
`extraChild`). -/
def PostCommon (dag : SubsplitDAG) (g g' : SampleGraph)
    (dV : List Nat) (dL : List Line) (extraChild : List Nat) : Prop :=
  g'.vertices = g.vertices ++ dV ∧ g'.lines = g.lines ++ dL ∧
  (∀ d ∈ dV, d ∉ g.vertices) ∧ dV.Nodup ∧ (∀ d ∈ dV, d ∈ dag.nodes) ∧
  (∀ l ∈ dL, (l.child ∈ dV ∨ l.child ∈ extraChild) ∧ l.parent ∈ dag.nodes ∧
     (l.child, l.edge) ∈ dag.leafward l.parent l.clade)

/-- Precondition of `SampleRootward` at `m`: everything visited so far
lies (taxon-wise) under `m`, and no vertex other than possibly `m`
itself is the designated root. -/
def PreR (dag : SubsplitDAG) (g : SampleGraph) (m : Nat) : Prop :=
  PreShared dag g ∧ m ∈ g.vertices ∧
  (∀ v ∈ g.vertices, taxaOf dag v ⊆ taxaOf dag m) ∧
  (∀ v ∈ g.vertices, v = m ∨ ¬isRootVertex dag v)

/-- Postcondition of `SampleRootward` at `m`: the new vertices are the
discovered ancestors and their sibling-side descents — each taxon-wise
strictly above `m`, disjoint from `m`, or the designated root; each new
vertex ends up with one child line per nonempty clade; every vertex that
gained a parent line is `m` or a new non-root vertex, each exactly once;
and the walk discovers exactly one root vertex unless `m` already is
one. -/
def PostR (dag : SubsplitDAG) (g : SampleGraph) (m : Nat) (g' : SampleGraph) : Prop :=
  ∃ dV dL, PostCommon dag g g' dV dL [m] ∧
    (isRootVertex dag m → dV = [] ∧ dL = []) ∧
    (∀ d ∈ dV, taxaOf dag m ⊂ taxaOf dag d ∨
       Disjoint (taxaOf dag d) (taxaOf dag m) ∨ isRootVertex dag d) ∧
    (∀ v j, childCount dL v j = if v ∈ dV then indC dag v j else 0) ∧
    (∀ v, parentCount dL v =
       if isRootVertex dag m then 0
       else if v = m ∨ (v ∈ dV ∧ ¬isRootVertex dag v) then 1 else 0) ∧
    dV.countP (fun d => decide (isRootVertex dag d)) =
      (if isRootVertex dag m then 0 else 1)

/-- Precondition of `SampleLeafward` at `(n, k)`: no visited vertex other
than a root lies taxon-wise inside the clade about to be expanded. -/
def PreL (dag : SubsplitDAG) (g : SampleGraph) (n : Nat) (k : SubsplitClade) : Prop :=
  PreShared dag g ∧ n ∈ g.vertices ∧
  (∀ v ∈ g.vertices, ¬taxaOf dag v ⊆ dag.cladeTaxa n k ∨ isRootVertex dag v)

/-- Postcondition of `SampleLeafward` at `(n, k)`: the new vertices form
the freshly sampled subtree inside clade `k` of `n`; `n` gains exactly
one child line on `k` (when the clade is expandable) and nothing else;
each new vertex is complete and has exactly one parent line; no new
vertex is a root. -/
def PostL (dag : SubsplitDAG) (g : SampleGraph) (n : Nat) (k : SubsplitClade)
    (g' : SampleGraph) : Prop :=
  ∃ dV dL, PostCommon dag g g' dV dL [] ∧
    (∀ d ∈ dV, taxaOf dag d ⊆ dag.cladeTaxa n k) ∧
    (∀ v j, childCount dL v j =
       if v = n ∧ j = k then indC dag n k
       else if v ∈ dV then indC dag v j else 0) ∧
    (∀ v, parentCount dL v = if v ∈ dV then 1 else 0) ∧
    dV.countP (fun d => decide (isRootVertex dag d)) = 0

/-- Precondition of `VisitNode` in `Rootward` mode at `c` (just reached
while descending): `c` is fresh, inside the node set, not a root, and no
visited non-root vertex lies taxon-wise inside `c`. -/
def PreVNRootward (dag : SubsplitDAG) (g : SampleGraph) (c : Nat) : Prop :=
  PreShared dag g ∧ c ∉ g.vertices ∧ c ∈ dag.nodes ∧ ¬isRootVertex dag c ∧
  (∀ v ∈ g.vertices, ¬taxaOf dag v ⊆ taxaOf dag c ∨ isRootVertex dag v)

/-- Postcondition of `VisitNode` in `Rootward` mode at `c`: the new
vertices are `c` and its sampled subtree, all taxon-wise inside `c`; all
are complete; all but `c` gained exactly one parent line (the line into
`c` was recorded by the caller); none is a root. -/
def PostVNRootward (dag : SubsplitDAG) (g : SampleGraph) (c : Nat)
    (g' : SampleGraph) : Prop :=
  ∃ dV dL, PostCommon dag g g' dV dL [] ∧ c ∈ dV ∧
    (∀ d ∈ dV, taxaOf dag d ⊆ taxaOf dag c) ∧
    (∀ v j, childCount dL v j = if v ∈ dV then indC dag v j else 0) ∧
    (∀ v, parentCount dL v = if v ∈ dV ∧ v ≠ c then 1 else 0) ∧
    dV.countP (fun d => decide (isRootVertex dag d)) = 0

/-- Precondition of `VisitNode` in `Leafward` mode at `p` reached by an
edge on clade `k` of `p`: `p` is fresh and everything visited so far
lies taxon-wise inside that clade; no visited vertex is a root. -/
def PreVNLeafward (dag : SubsplitDAG) (g : SampleGraph) (p : Nat)
    (k : SubsplitClade) : Prop :=
  PreShared dag g ∧ p ∉ g.vertices ∧ p ∈ dag.nodes ∧ dag.cladeTaxa p k ≠ ∅ ∧
  (∀ v ∈ g.vertices, taxaOf dag v ⊆ dag.cladeTaxa p k) ∧
  (∀ v ∈ g.vertices, ¬isRootVertex dag v)

/-- Postcondition of `VisitNode` in `Leafward` mode at `p` with arrival
clade `k`: the new vertices are `p`, the ancestors above it with their
sibling descents, and `p`'s own opposite-clade descent; `p` gains a child
line only on the opposite clade here (its clade-`k` child line was
recorded by the caller); exactly one discovered vertex is a root. -/
def PostVNLeafward (dag : SubsplitDAG) (g : SampleGraph) (p : Nat)
    (k : SubsplitClade) (g' : SampleGraph) : Prop :=
  ∃ dV dL, PostCommon dag g g' dV dL [] ∧ p ∈ dV ∧
    (∀ d ∈ dV, d = p ∨ taxaOf dag p ⊂ taxaOf dag d ∨
       Disjoint (taxaOf dag d) (dag.cladeTaxa p k) ∨ isRootVertex dag d) ∧
    (∀ v j, childCount dL v j =
       if v = p then (if j = Bitset.Opposite k then indC dag p j else 0)
       else if v ∈ dV then indC dag v j else 0) ∧
    (∀ v, parentCount dL v = if v ∈ dV ∧ ¬isRootVertex dag v then 1 else 0) ∧
    dV.countP (fun d => decide (isRootVertex dag d)) = 1

/-- Structural facts about the finished subgraph of a successful
traversal, from which the leaf-set and shape claims follow: vertices are
distinct nodes of the DAG; every visited vertex has one child line per
expandable clade; every line is a recorded DAG edge into a visited
child; a visited vertex has a parent line exactly when it is not the
designated root; and exactly one visited vertex is the designated root. -/
def FinalInv (dag : SubsplitDAG) (g : SampleGraph) : Prop :=
  g.vertices.Nodup ∧ (∀ v ∈ g.vertices, v ∈ dag.nodes) ∧
  (∀ v ∈ g.vertices, ∀ j, childCount g.lines v j = indC dag v j) ∧
  (∀ l ∈ g.lines, l.child ∈ g.vertices ∧ l.parent ∈ dag.nodes ∧
     (l.child, l.edge) ∈ dag.leafward l.parent l.clade) ∧
  (∀ v ∈ g.vertices, parentCount g.lines v = if isRootVertex dag v then 0 else 1) ∧
  g.vertices.countP (fun v => decide (isRootVertex dag v)) = 1

/-! Concrete instances used as witnesses and counterexamples. -/

/-- Constant probability table used by the concrete runs. -/
def unitProbs : Nat → ℚ := fun _ => 1

/-- A concrete generator state. -/
def rng0 : MersenneTwister := ⟨0⟩

/-- Rootward views of the three-taxon example DAG: leaves 0, 1, 2; node 3
is the subsplit of taxa 1 and 2; node 4 the rootsplit separating taxon 0;
node 5 the designated root. -/
def dagExRootward : Nat → SubsplitClade → List (Nat × Nat)
  | 0, .left => [(4, 0)]
  | 1, .left => [(3, 1)]
  | 2, .right => [(3, 2)]
  | 3, .right => [(4, 3)]
  | 4, .left => [(5, 4)]
  | _, _ => []

/-- Leafward views of the three-taxon example DAG. -/
def dagExLeafward : Nat → SubsplitClade → List (Nat × Nat)
  | 3, .left => [(1, 1)]
  | 3, .right => [(2, 2)]
  | 4, .left => [(0, 0)]
  | 4, .right => [(3, 3)]
  | 5, .left => [(4, 4)]
  | _, _ => []

/-- Edge records of the three-taxon example DAG. -/
def dagExEdges : Nat → DAGLine
  | 0 => ⟨4, 0, .left⟩
  | 1 => ⟨3, 1, .left⟩
  | 2 => ⟨3, 2, .right⟩
  | 3 => ⟨4, 3, .right⟩
  | _ => ⟨5, 4, .left⟩

/-- Subsplits of the three-taxon example DAG. -/
def dagExTaxa : Nat → SubsplitClade → Finset Nat
  | 0, .left => {0}
  | 1, .left => {1}
  | 2, .left => {2}
  | 3, .left => {1}
  | 3, .right => {2}
  | 4, .left => {0}
  | 4, .right => {1, 2}
  | 5, .left => {0, 1, 2}
  | _, _ => ∅

/-- The minimal three-taxon subsplit DAG of the specification's testable
properties (one internal subsplit, one rootsplit, a designated root). -/
def dagEx : SubsplitDAG :=
  ⟨[0, 1, 2, 3, 4, 5], dagExRootward, dagExLeafward, dagExEdges, dagExTaxa, {0, 1, 2}⟩

/-- Session over the example DAG with unit probability tables. -/
def sesEx : SamplingSession := ⟨dagEx, unitProbs, unitProbs⟩

/-- The subgraph the traversal over `dagEx` accumulates from focus node 3
with generator `rng0`. -/
def gEx : SampleGraph :=
  ⟨[3, 4, 5, 0, 1, 2],
   [⟨3, 4, 3, .right⟩, ⟨4, 5, 4, .left⟩, ⟨0, 4, 0, .left⟩,
    ⟨1, 3, 1, .left⟩, ⟨2, 3, 2, .right⟩]⟩

/-- The generator state after the traversal over `dagEx` from node 3. -/
def rngEx : MersenneTwister := ⟨211120468667417⟩

/-- The tree the example run over `dagEx` produces. -/
def tEx : SNode :=
  .join1 (.join (.leaf 0) (.join (.leaf 1) (.leaf 2) 3) 4) 5

/-- A deliberately malformed two-node DAG whose edge records close a
cycle in the sampled subgraph, so that the finished subgraph has no root
vertex. -/
def dag5 : SubsplitDAG :=
  ⟨[0, 1],
   fun n k => match n, k with | 0, .left => [(1, 0)] | _, _ => [],
   fun n k => match n, k with | 1, .right => [(0, 1)] | _, _ => [],
   fun e => match e with | 0 => ⟨1, 0, .left⟩ | _ => ⟨1, 1, .right⟩,
   fun _ _ => ∅, ∅⟩

/-- Session over the malformed two-node DAG. -/
def ses5 : SamplingSession := ⟨dag5, unitProbs, unitProbs⟩

/-- A two-node DAG with a single rootward edge above node 0 and no
leafward structure, separating the two dispatch behaviors of
`VisitNode`. -/
def dagC2 : SubsplitDAG :=
  ⟨[0, 1],
   fun n k => match n, k with | 0, .left => [(1, 0)] | _, _ => [],
   fun _ _ => [],
   fun _ => ⟨1, 0, .left⟩,
   fun _ _ => ∅, ∅⟩

/-- Session over the `VisitNode` dispatch example DAG. -/
def sesC2 : SamplingSession := ⟨dagC2, unitProbs, unitProbs⟩

/-- A DAG whose node 0 is neither a leaf (it has a leafward neighbor) nor
the root (it has a rootward neighbor); used against `BuildTree` with one
discovered child. -/
def dagC6 : SubsplitDAG :=
  ⟨[0, 1, 2],
   fun n k => match n, k with | 0, .left => [(2, 1)] | _, _ => [],
   fun n k => match n, k with | 0, .left => [(1, 0)] | _, _ => [],
   fun _ => ⟨0, 1, .left⟩,
   fun _ _ => ∅, ∅⟩

/-- Subgraph in which vertex 0 has exactly one discovered child, on the
left clade. -/
def gC6 : SampleGraph := ⟨[0, 1], [⟨0, 0, 1, .left⟩]⟩

/-- A DAG whose node 0 is the designated root with leafward structure on
the right clade only. -/
def dagC7 : SubsplitDAG :=
  ⟨[0, 1],
   fun _ _ => [],
   fun n k => match n, k with | 0, .right => [(1, 0)] | _, _ => [],
   fun _ => ⟨0, 1, .right⟩,
   fun _ _ => ∅, ∅⟩

/-- Subgraph in which the root vertex 0 has exactly one discovered child,
on the right clade. -/
def gC7 : SampleGraph := ⟨[0, 1], [⟨0, 0, 1, .right⟩]⟩

/-- A DAG whose node 0 is the designated root with leafward structure on
the left clade only, and whose node 1 is a leaf. -/
def dagC7L : SubsplitDAG :=
  ⟨[0, 1],
   fun _ _ => [],
   fun n k => match n, k with | 0, .left => [(1, 0)] | _, _ => [],
   fun _ => ⟨0, 1, .left⟩,
   fun _ _ => ∅, ∅⟩

/-- Subgraph in which the root vertex 0 has exactly one discovered child,
on the left clade. -/
def gC7L : SampleGraph := ⟨[0, 1], [⟨0, 0, 1, .left⟩]⟩

/-- The DAG's neighbor views stay inside its node set. -/
def Closed (dag : SubsplitDAG) : Prop :=
  ∀ n ∈ dag.nodes, ∀ k : SubsplitClade,
    (∀ pr ∈ dag.rootward n k, pr.1 ∈ dag.nodes) ∧
    (∀ ce ∈ dag.leafward n k, ce.1 ∈ dag.nodes)

/-- Every weighted-choice pool the traversal can form has at most one
candidate: the pooled rootward views have combined size at most one, and
each per-clade leafward view has size at most one.  Together with
nonemptiness checks in the samplers this makes every encountered pool a
singleton — a DAG encoding a single topology. -/
def SingletonPools (dag : SubsplitDAG) : Prop :=
  ∀ n ∈ dag.nodes,
    ((dag.rootward n .left).length + (dag.rootward n .right).length ≤ 1) ∧
    (∀ k : SubsplitClade, (dag.leafward n k).length ≤ 1)

instance (dag : SubsplitDAG) : Decidable (Closed dag) := by
  unfold Closed; infer_instance

instance (dag : SubsplitDAG) : Decidable (SingletonPools dag) := by
  unfold SingletonPools; infer_instance

instance (dag : SubsplitDAG) : Decidable (WF dag) := by
  unfold WF; infer_instance

/-- Rootward rank (distance from the root) of each example DAG node:
every rootward step strictly decreases it. -/
def exRootRank : Nat → Nat
  | 5 => 0
  | 4 => 1
  | 3 => 2
  | 0 => 2
  | 1 => 3
  | _ => 3

/-- Leafward rank (height) of each example DAG node: every leafward step
strictly decreases it. -/
def exLeafRank : Nat → Nat
  | 3 => 1
  | 4 => 2
  | 5 => 3
  | _ => 0

/-- Termination measure for `VisitNode` under a rootward rank (strictly
decreasing along every rootward step) and a leafward rank (strictly
decreasing along every leafward step) bounded by `L`: climbing arrivals
are measured by the rootward rank, descending arrivals by the leafward
rank. -/
def visitMeasure (rootRank leafRank : Nat → Nat) (L : Nat) (dir : Direction)
    (n : Nat) : Nat :=
  match dir with
  | .leafward => (rootRank n + 1) * (2 * L + 3)
  | .rootward => 2 * leafRank n + 2

/-! Helper lemmas about the generator and the weighted choice. -/

theorem draw_nonneg (g : MersenneTwister) : 0 ≤ g.draw.1 := by
  unfold MersenneTwister.draw
  positivity

theorem draw_lt_one (g : MersenneTwister) : g.draw.1 < 1 := by
  unfold MersenneTwister.draw
  rw [div_lt_one (by norm_num)]
  exact_mod_cast Nat.mod_lt _ (by norm_num)

theorem discretePick_singleton (w t : ℚ) : discretePick [w] t = 0 := rfl

theorem discretePick_lt_length (ws : List ℚ) (t : ℚ) (h : ws ≠ []) :
    discretePick ws t < ws.length := by
  induction ws generalizing t with
  | nil => exact absurd rfl h
  | cons w rest ih =>
    cases rest with
    | nil => simp [discretePick]
    | cons w2 r2 =>
      simp only [discretePick]
      by_cases ht : t < w
      · simp [ht]
      · simp only [ht, if_false, List.length_cons]
        have h2 := ih (t - w) (by simp)
        simp only [List.length_cons] at h2
        omega

theorem getD_sum_eq_zero (l : List ℚ) (h : ∀ i, i < l.length → l.getD i 0 = 0) :
    l.sum = 0 := by
  induction l with
  | nil => rfl
  | cons a t ih =>
    have h0 := h 0 (by simp)
    simp only [List.getD_cons_zero] at h0
    have ht : ∀ i, i < t.length → t.getD i 0 = 0 := by
      intro i hi
      have := h (i + 1) (by simpa using Nat.succ_lt_succ hi)
      simpa using this
    simp [h0, ih ht]

theorem sum_eq_getD_of_zeros (ws : List ℚ) (j : Nat) (hj : j < ws.length)
    (hz : ∀ i, i < ws.length → i ≠ j → ws.getD i 0 = 0) :
    ws.sum = ws.getD j 0 := by
  induction ws generalizing j with
  | nil => simp at hj
  | cons w rest ih =>
    rcases Nat.eq_zero_or_pos j with hj0 | hjpos
    · subst hj0
      have hr : rest.sum = 0 := by
        apply getD_sum_eq_zero
        intro i hi
        have := hz (i + 1) (by simpa using Nat.succ_lt_succ hi) (by omega)
        simpa using this
      simp [hr]
    · obtain ⟨j', rfl⟩ := Nat.exists_eq_add_of_lt hjpos
      have hw : w = 0 := by
        have := hz 0 (by simp) (by omega)
        simpa using this
      have hrec := ih j' (by simp at hj; omega) (by
        intro i hi hij
        have := hz (i + 1) (by simpa using Nat.succ_lt_succ hi) (by omega)
        simpa using this)
      simp only [List.sum_cons, hw, zero_add, hrec]
      simp [List.getD_cons_succ]

theorem discretePick_eq_of_zeros (ws : List ℚ) (j : Nat) (t : ℚ)
    (hj : j < ws.length) (hz : ∀ i, i < ws.length → i ≠ j → ws.getD i 0 = 0)
    (ht0 : 0 ≤ t) (hts : t < ws.sum) : discretePick ws t = j := by
  induction ws generalizing j t with
  | nil => simp at hj
  | cons w rest ih =>
    cases rest with
    | nil =>
      have hj0 : j = 0 := by simp at hj; omega
      subst hj0
      rfl
    | cons w2 r2 =>
      rcases Nat.eq_zero_or_pos j with hj0 | hjpos
      · subst hj0
        have hr : (w2 :: r2).sum = 0 := by
          apply getD_sum_eq_zero
          intro i hi
          have := hz (i + 1) (by simpa using Nat.succ_lt_succ hi) (by omega)
          simpa using this
        have hw : t < w := by
          have : (w :: w2 :: r2).sum = w := by simp [List.sum_cons] at hr ⊢; simp [hr]
          rw [this] at hts
          exact hts
        simp [discretePick, hw]
      · obtain ⟨j', rfl⟩ := Nat.exists_eq_add_of_lt hjpos
        have hw : w = 0 := by
          have := hz 0 (by simp) (by omega)
          simpa using this
        have hnt : ¬ t < w := by rw [hw]; exact not_lt.mpr ht0
        simp only [discretePick, hnt, if_false]
        have hrec := ih j' (t - w)
          (by simp at hj ⊢; omega)
          (by
            intro i hi hij
            have := hz (i + 1) (by simpa using Nat.succ_lt_succ hi) (by omega)
            simpa using this)
          (by rw [hw]; simpa using ht0)
          (by
            rw [hw] at hts ⊢
            simp only [List.sum_cons, zero_add] at hts
            simpa using hts)
        omega

theorem getD_map_pool (pool : List (Nat × Nat)) (f : Nat × Nat → ℚ) (i : Nat)
    (h : i < pool.length) : (pool.map f).getD i 0 = f (pool.getD i (0, 0)) := by
  induction pool generalizing i with
  | nil => simp at h
  | cons a t ih =>
    cases i with
    | zero => simp
    | succ i' =>
      simp only [List.map_cons, List.getD_cons_succ]
      exact ih i' (by simpa using Nat.succ_lt_succ_iff.mp (by simpa using h))

theorem getD_append_left (l1 l2 : List α) (n : Nat) (d : α) (h : n < l1.length) :
    (l1 ++ l2).getD n d = l1.getD n d := by
  induction l1 generalizing n with
  | nil => simp at h
  | cons a t ih =>
    cases n with
    | zero => simp
    | succ n' =>
      simp only [List.cons_append, List.getD_cons_succ]
      exact ih n' (by simpa using Nat.succ_lt_succ_iff.mp (by simpa using h))

theorem getD_append_right (l1 l2 : List α) (n : Nat) (d : α) (h : l1.length ≤ n) :
    (l1 ++ l2).getD n d = l2.getD (n - l1.length) d := by
  induction l1 generalizing n with
  | nil => simp
  | cons a t ih =>
    cases n with
    | zero => simp at h
    | succ n' =>
      simp only [List.cons_append, List.getD_cons_succ, List.length_cons]
      rw [ih n' (by simpa using h)]
      congr 1
      omega

/-! Claim C2: the dispatcher of `VisitNode`. -/

/-- C2 (counterexample): at a node with a rootward neighbor and no
leafward structure, visiting in arrived-from-leafward mode does not
behave as the claim states (it climbs and records the sampled parent
edge, whereas the claimed behavior descends both clades and records
nothing). -/
theorem VisitNode_claimed_dispatch_refuted :
    (VisitNode 5 sesC2 ⟨[], []⟩ rng0 0 .leafward .left).map Prod.fst ≠
      (VisitNodeClaimed 5 sesC2 ⟨[], []⟩ rng0 0 .leafward .left).map Prod.fst := by
  decide

/-- C2 (amended): `VisitNode` first records the node as a vertex
(idempotently); arrived-from-leafward mode (reached while climbing)
continues climbing rootward and descends on the opposite clade from the
one just taken; arrived-from-rootward mode (reached while descending)
descends leafward on both clades. -/
theorem VisitNode_dispatch (fuel : Nat) (ses : SamplingSession) (g : SampleGraph)
    (rng : MersenneTwister) (node : Nat) (clade : SubsplitClade) :
    (VisitNode (fuel + 1) ses g rng node .leafward clade =
      match SampleRootward fuel ses (g.addVertex node) rng node with
      | .error e => .error e
      | .ok gr => SampleLeafward fuel ses gr.1 gr.2 node (Bitset.Opposite clade)) ∧
    (VisitNode (fuel + 1) ses g rng node .rootward clade =
      match SampleLeafward fuel ses (g.addVertex node) rng node .left with
      | .error e => .error e
      | .ok gr => SampleLeafward fuel ses gr.1 gr.2 node .right) ∧
    (node ∈ g.vertices → g.addVertex node = g) := by
  refine ⟨rfl, rfl, ?_⟩
  intro h
  simp [SampleGraph.addVertex, h]

/-! Claim C4: which probability table weighs which direction. -/

/-- C4: the rootward sampler weights every pooled parent candidate by the
inverted-probabilities entry of its edge id, and the leafward sampler
weights every child candidate by the normalized-probabilities entry of
its edge id: whenever those entries single out one candidate (positive
there, zero on every other candidate), that candidate is chosen, for any
generator state. -/
theorem pool_weights_by_direction :
    (∀ (ses : SamplingSession) (rng : MersenneTwister)
       (left right : List (Nat × Nat)) (j : Nat),
       j < (left ++ right).length →
       (∀ i, i < (left ++ right).length → i ≠ j →
          ses.inverted_probabilities ((left ++ right).getD i (0, 0)).2 = 0) →
       0 < ses.inverted_probabilities ((left ++ right).getD j (0, 0)).2 →
       (SampleParentNodeAndEdge ses rng left right).1 = (left ++ right).getD j (0, 0)) ∧
    (∀ (ses : SamplingSession) (rng : MersenneTwister)
       (neighbors : List (Nat × Nat)) (j : Nat),
       j < neighbors.length →
       (∀ i, i < neighbors.length → i ≠ j →
          ses.normalized_sbn_parameters (neighbors.getD i (0, 0)).2 = 0) →
       0 < ses.normalized_sbn_parameters (neighbors.getD j (0, 0)).2 →
       (SampleChildNodeAndEdge ses rng neighbors).1 = neighbors.getD j (0, 0)) := by
  constructor
  · intro ses rng left right j hj hz hp
    have hzw : ∀ i, i < ((left ++ right).map
        (fun pr => ses.inverted_probabilities pr.2)).length → i ≠ j →
        ((left ++ right).map (fun pr => ses.inverted_probabilities pr.2)).getD i 0 = 0 := by
      intro i hi hij
      rw [List.length_map] at hi
      rw [getD_map_pool _ _ _ hi]
      exact hz i hi hij
    have hjw : j < ((left ++ right).map
        (fun pr => ses.inverted_probabilities pr.2)).length := by
      rwa [List.length_map]
    have hsum : ((left ++ right).map (fun pr => ses.inverted_probabilities pr.2)).sum =
        ses.inverted_probabilities ((left ++ right).getD j (0, 0)).2 := by
      rw [sum_eq_getD_of_zeros _ j hjw hzw, getD_map_pool _ _ _ (by rwa [List.length_map] at hjw)]
    have hpick : discretePick
        ((left ++ right).map (fun pr => ses.inverted_probabilities pr.2))
        (rng.draw.1 * ((left ++ right).map (fun pr => ses.inverted_probabilities pr.2)).sum)
        = j := by
      apply discretePick_eq_of_zeros _ _ _ hjw hzw
      · exact mul_nonneg (draw_nonneg rng) (by rw [hsum]; exact le_of_lt hp)
      · rw [hsum]
        calc rng.draw.1 * ses.inverted_probabilities ((left ++ right).getD j (0, 0)).2
            < 1 * ses.inverted_probabilities ((left ++ right).getD j (0, 0)).2 := by
              exact mul_lt_mul_of_pos_right (draw_lt_one rng) hp
          _ = _ := one_mul _
    show (if discretePick _ _ < left.length then _ else _ : (Nat × Nat) × MersenneTwister).1
        = _
    rw [hpick]
    by_cases hjl : j < left.length
    · simp only [hjl, if_true]
      exact (getD_append_left left right j (0, 0) hjl).symm
    · simp only [hjl, if_false]
      exact (getD_append_right left right j (0, 0) (by omega)).symm
  · intro ses rng neighbors j hj hz hp
    have hzw : ∀ i, i < (neighbors.map
        (fun ce => ses.normalized_sbn_parameters ce.2)).length → i ≠ j →
        (neighbors.map (fun ce => ses.normalized_sbn_parameters ce.2)).getD i 0 = 0 := by
      intro i hi hij
      rw [List.length_map] at hi
      rw [getD_map_pool _ _ _ hi]
      exact hz i hi hij
    have hjw : j < (neighbors.map (fun ce => ses.normalized_sbn_parameters ce.2)).length := by
      rwa [List.length_map]
    have hsum : (neighbors.map (fun ce => ses.normalized_sbn_parameters ce.2)).sum =
        ses.normalized_sbn_parameters (neighbors.getD j (0, 0)).2 := by
      rw [sum_eq_getD_of_zeros _ j hjw hzw, getD_map_pool _ _ _ (by rwa [List.length_map] at hjw)]
    have hpick : discretePick
        (neighbors.map (fun ce => ses.normalized_sbn_parameters ce.2))
        (rng.draw.1 * (neighbors.map (fun ce => ses.normalized_sbn_parameters ce.2)).sum)
        = j := by
      apply discretePick_eq_of_zeros _ _ _ hjw hzw
      · exact mul_nonneg (draw_nonneg rng) (by rw [hsum]; exact le_of_lt hp)
      · rw [hsum]
        calc rng.draw.1 * ses.normalized_sbn_parameters (neighbors.getD j (0, 0)).2
            < 1 * ses.normalized_sbn_parameters (neighbors.getD j (0, 0)).2 := by
              exact mul_lt_mul_of_pos_right (draw_lt_one rng) hp
          _ = _ := one_mul _
    show (neighbors.getD (discretePick _ _) (0, 0), rng.draw.2).1 = _
    rw [hpick]

/-- C4 (witness): with two candidates in each pool and a table positive
only on edge id 1, both samplers pick the second candidate. -/
theorem pool_weights_by_direction_witness :
    (SampleParentNodeAndEdge ⟨dagEx, unitProbs, fun e => if e = 1 then 1 else 0⟩
        rng0 [(7, 0)] [(8, 1)]).1 = (8, 1) ∧
    (SampleChildNodeAndEdge ⟨dagEx, fun e => if e = 1 then 1 else 0, unitProbs⟩
        rng0 [(7, 0), (8, 1)]).1 = (8, 1) := by
  constructor
  · have h := (pool_weights_by_direction).1
      ⟨dagEx, unitProbs, fun e => if e = 1 then 1 else 0⟩ rng0 [(7, 0)] [(8, 1)] 1
      (by decide)
      (by intro i hi hij; simp at hi; interval_cases i <;> simp_all)
      (by decide)
    simpa using h
  · have h := (pool_weights_by_direction).2
      ⟨dagEx, fun e => if e = 1 then 1 else 0, unitProbs⟩ rng0 [(7, 0), (8, 1)] 1
      (by decide)
      (by intro i hi hij; simp at hi; interval_cases i <;> simp_all)
      (by decide)
    simpa using h

/-! Claim C5: no discoverable root is fatal. -/

/-- C5: when the traversal completes but no root vertex can be located in
the finished subgraph, `Sample` fails with the fatal no-root error and
returns no tree. -/
theorem no_root_is_fatal (fuel node : Nat) (dag : SubsplitDAG) (qn qi : Nat → ℚ)
    (rng : MersenneTwister) (gr : SampleGraph × MersenneTwister)
    (htrav : RunTraversal fuel ⟨dag, qn, qi⟩ node rng = .ok gr)
    (hroot : FindRoot (ConnectAllVertices gr.1) = none) :
    Sample fuel node dag qn qi rng = .error .noRoot := by
  unfold Sample
  rw [htrav]
  simp [hroot]

/-- C5 (witness): on the malformed two-node DAG whose recorded lines close
a cycle, the traversal completes, no root is found, and the call fails
fatally with no partial tree. -/
theorem no_root_is_fatal_witness :
    Sample 10 0 dag5 unitProbs unitProbs rng0 = .error .noRoot := by
  exact no_root_is_fatal 10 0 dag5 unitProbs unitProbs rng0
    (⟨[0, 1], [⟨0, 1, 0, .left⟩, ⟨1, 1, 1, .right⟩]⟩, ⟨595917840⟩)
    (by decide) (by decide)

/-! Claim C6: one discovered child on an internal non-root vertex. -/

/-- C6: `BuildTree` on a vertex that is neither a leaf nor the designated
root and that has exactly one discovered leafward child fails fatally
instead of returning a tree. -/
theorem one_child_internal_is_fatal (fuel : Nat) (dag : SubsplitDAG)
    (g : SampleGraph) (v : Nat)
    (hleaf : ¬isLeafVertex dag v) (hroot : ¬isRootVertex dag v)
    (hone : ((∃ c, graphNeighbors g v .left = [c]) ∧ graphNeighbors g v .right = []) ∨
            (graphNeighbors g v .left = [] ∧ ∃ c, graphNeighbors g v .right = [c])) :
    BuildTree (fuel + 1) dag g v = .error .oneChild := by
  rcases hone with ⟨⟨c, hl⟩, hr⟩ | ⟨hl, ⟨c, hr⟩⟩ <;>
    · unfold BuildTree
      rw [hl, hr]
      simp [hleaf, hroot]

/-- C6 (witness): a concrete internal non-root vertex with one discovered
left child makes `BuildTree` fail fatally. -/
theorem one_child_internal_is_fatal_witness :
    BuildTree 5 dagC6 gC6 0 = .error .oneChild := by
  exact one_child_internal_is_fatal 4 dagC6 gC6 0 (by decide) (by decide)
    (Or.inl ⟨⟨1, by decide⟩, by decide⟩)

/-! Claim C7: the single-child root. -/

/-- C7 (counterexample): a designated root whose single discovered child
sits on the right clade is not wrapped — `BuildTree` fails fatally on it,
so the claim's "on either clade" is false. -/
theorem root_single_right_child_refuted :
    isRootVertex dagC7 0 ∧ ¬isLeafVertex dagC7 0 ∧
    graphNeighbors gC7 0 .left = [] ∧ graphNeighbors gC7 0 .right = [1] ∧
    BuildTree 5 dagC7 gC7 0 = .error .rootNoChildren := by
  refine ⟨by decide, by decide, by decide, by decide, by decide⟩

/-- C7 (amended): `BuildTree` on the designated root with exactly one
discovered leafward child wraps that child's subtree as a single-child
root only when the child was discovered on the left clade; with the
single child on the right clade the call fails fatally. -/
theorem root_single_left_child_wraps (fuel : Nat) (dag : SubsplitDAG)
    (g : SampleGraph) (v lid : Nat)
    (hroot : isRootVertex dag v) (hleaf : ¬isLeafVertex dag v)
    (hl : graphNeighbors g v .left = [lid]) (hr : graphNeighbors g v .right = []) :
    BuildTree (fuel + 1) dag g v =
      match BuildTree fuel dag g lid with
      | .ok lt => .ok (.join1 lt v)
      | .error e => .error e := by
  conv_lhs => rw [BuildTree]
  rw [hl, hr]
  simp [hleaf, hroot]

/-- C7 (witness): a root with one discovered left child wraps it. -/
theorem root_single_left_child_wraps_witness :
    BuildTree 2 dagC7L gC7L 0 = .ok (.join1 (.leaf 1) 0) := by
  rw [root_single_left_child_wraps 1 dagC7L gC7L 0 1 (by decide) (by decide)
    (by decide) (by decide)]
  decide

/-! Claim C10: singleton pools are deterministic picks. -/

theorem getD_zero_mem {α : Type _} (l : List α) (d : α) (h : l ≠ []) :
    l.getD 0 d ∈ l := by
  cases l with
  | nil => exact absurd rfl h
  | cons a t => simp

theorem parent_choice_singleton (ses : SamplingSession) (rng : MersenneTwister)
    (left right : List (Nat × Nat)) (h : left.length + right.length = 1) :
    (SampleParentNodeAndEdge ses rng left right).1 = (left ++ right).getD 0 (0, 0) := by
  cases left with
  | nil =>
    cases right with
    | nil => simp at h
    | cons y t =>
      cases t with
      | nil => simp [SampleParentNodeAndEdge, discretePick]
      | cons z t2 => simp at h
  | cons x t =>
    cases t with
    | nil =>
      cases right with
      | nil => simp [SampleParentNodeAndEdge, discretePick]
      | cons y t2 => simp at h
    | cons z t2 => simp at h; omega

theorem child_choice_singleton (ses : SamplingSession) (rng : MersenneTwister)
    (neighbors : List (Nat × Nat)) (h : neighbors.length = 1) :
    (SampleChildNodeAndEdge ses rng neighbors).1 = neighbors.getD 0 (0, 0) := by
  cases neighbors with
  | nil => simp at h
  | cons x t =>
    cases t with
    | nil => simp [SampleChildNodeAndEdge, discretePick]
    | cons y t2 => simp at h

theorem traversal_rng_independent (dag : SubsplitDAG) (qn qi : Nat → ℚ)
    (hC : Closed dag) (hS : SingletonPools dag) : ∀ fuel : Nat,
    (∀ node g rng1 rng2, node ∈ dag.nodes →
      (SampleRootward fuel ⟨dag, qn, qi⟩ g rng1 node).map Prod.fst =
        (SampleRootward fuel ⟨dag, qn, qi⟩ g rng2 node).map Prod.fst) ∧
    (∀ node k g rng1 rng2, node ∈ dag.nodes →
      (SampleLeafward fuel ⟨dag, qn, qi⟩ g rng1 node k).map Prod.fst =
        (SampleLeafward fuel ⟨dag, qn, qi⟩ g rng2 node k).map Prod.fst) ∧
    (∀ node dir k g rng1 rng2, node ∈ dag.nodes →
      (VisitNode fuel ⟨dag, qn, qi⟩ g rng1 node dir k).map Prod.fst =
        (VisitNode fuel ⟨dag, qn, qi⟩ g rng2 node dir k).map Prod.fst) := by
  intro fuel
  induction fuel with
  | zero => exact ⟨fun _ _ _ _ _ => rfl, fun _ _ _ _ _ _ => rfl, fun _ _ _ _ _ _ _ => rfl⟩
  | succ fuel ih =>
    obtain ⟨ihR, ihL, ihV⟩ := ih
    refine ⟨?_, ?_, ?_⟩
    · intro node g rng1 rng2 hn
      simp only [SampleRootward]
      by_cases he : dag.rootward node .left = [] ∧ dag.rootward node .right = []
      · simp [he, Except.map]
      · simp only [he, if_false]
        have hlen : (dag.rootward node .left).length + (dag.rootward node .right).length = 1 := by
          have hle := (hS node hn).1
          rcases Nat.lt_or_ge ((dag.rootward node .left).length +
            (dag.rootward node .right).length) 1 with hlt | hge
          · exfalso
            have h0 : (dag.rootward node .left).length = 0 ∧
                (dag.rootward node .right).length = 0 := by omega
            exact he ⟨List.length_eq_zero.mp h0.1, List.length_eq_zero.mp h0.2⟩
          · omega
        have hp1 := parent_choice_singleton ⟨dag, qn, qi⟩ rng1
          (dag.rootward node .left) (dag.rootward node .right) hlen
        have hp2 := parent_choice_singleton ⟨dag, qn, qi⟩ rng2
          (dag.rootward node .left) (dag.rootward node .right) hlen
        set pe0 := (dag.rootward node .left ++ dag.rootward node .right).getD 0 (0, 0) with hpe0
        have hmem : pe0 ∈ dag.rootward node .left ++ dag.rootward node .right := by
          apply getD_zero_mem
          intro hnil
          rcases List.append_eq_nil.mp hnil with ⟨h1, h2⟩
          exact he ⟨h1, h2⟩
        have hpn : pe0.1 ∈ dag.nodes := by
          rcases List.mem_append.mp hmem with hm | hm
          · exact ((hC node hn .left).1 pe0 hm)
          · exact ((hC node hn .right).1 pe0 hm)
        rw [hp1, hp2]
        exact ihV pe0.1 .leafward (dag.edges pe0.2).clade _ _ _ hpn
    · intro node k g rng1 rng2 hn
      simp only [SampleLeafward]
      by_cases he : dag.leafward node k = []
      · simp [he, Except.map]
      · simp only [he, if_false]
        have hlen : (dag.leafward node k).length = 1 := by
          have hle := (hS node hn).2 k
          have hpos : 0 < (dag.leafward node k).length :=
            List.length_pos.mpr he
          omega
        have hp1 := child_choice_singleton ⟨dag, qn, qi⟩ rng1 (dag.leafward node k) hlen
        have hp2 := child_choice_singleton ⟨dag, qn, qi⟩ rng2 (dag.leafward node k) hlen
        set ce0 := (dag.leafward node k).getD 0 (0, 0) with hce0
        have hmem : ce0 ∈ dag.leafward node k := getD_zero_mem _ _ he
        have hcn : ce0.1 ∈ dag.nodes := (hC node hn k).2 ce0 hmem
        rw [hp1, hp2]
        exact ihV ce0.1 .rootward k _ _ _ hcn
    · intro node dir k g rng1 rng2 hn
      cases dir with
      | rootward =>
        simp only [VisitNode]
        have h1 := ihL node .left (g.addVertex node) rng1 rng2 hn
        cases hx : SampleLeafward fuel ⟨dag, qn, qi⟩ (g.addVertex node) rng1 node .left with
        | error e1 =>
          cases hy : SampleLeafward fuel ⟨dag, qn, qi⟩ (g.addVertex node) rng2 node .left with
          | error e2 => rw [hx, hy] at h1; simp only [Except.map] at h1; simp only [Except.error.injEq] at h1; dsimp only; simp [h1, Except.map]
          | ok gr2 => rw [hx, hy] at h1; simp only [Except.map] at h1; exact absurd h1 (by simp)
        | ok gr1 =>
          cases hy : SampleLeafward fuel ⟨dag, qn, qi⟩ (g.addVertex node) rng2 node .left with
          | error e2 => rw [hx, hy] at h1; simp only [Except.map] at h1; exact absurd h1 (by simp)
          | ok gr2 =>
            rw [hx, hy] at h1
            simp only [Except.map] at h1
            have hg : gr1.1 = gr2.1 := by simpa using h1
            dsimp only
            rw [← hg]
            exact ihL node .right gr1.1 gr1.2 gr2.2 hn
      | leafward =>
        simp only [VisitNode]
        have h1 := ihR node (g.addVertex node) rng1 rng2 hn
        cases hx : SampleRootward fuel ⟨dag, qn, qi⟩ (g.addVertex node) rng1 node with
        | error e1 =>
          cases hy : SampleRootward fuel ⟨dag, qn, qi⟩ (g.addVertex node) rng2 node with
          | error e2 => rw [hx, hy] at h1; simp only [Except.map] at h1; simp only [Except.error.injEq] at h1; dsimp only; simp [h1, Except.map]
          | ok gr2 => rw [hx, hy] at h1; simp only [Except.map] at h1; exact absurd h1 (by simp)
        | ok gr1 =>
          cases hy : SampleRootward fuel ⟨dag, qn, qi⟩ (g.addVertex node) rng2 node with
          | error e2 => rw [hx, hy] at h1; simp only [Except.map] at h1; exact absurd h1 (by simp)
          | ok gr2 =>
            rw [hx, hy] at h1
            simp only [Except.map] at h1
            have hg : gr1.1 = gr2.1 := by simpa using h1
            dsimp only
            rw [← hg]
            exact ihL node (Bitset.Opposite k) gr1.1 gr1.2 gr2.2 hn

/-- C10: on a DAG in which every weighted-choice pool the traversal can
encounter has exactly one candidate (a DAG encoding a single topology),
`Sample` returns the same tree for every generator state — a singleton
pool is a deterministic pick, so the seed is irrelevant to the result. -/
theorem singleton_pools_deterministic (dag : SubsplitDAG) (qn qi : Nat → ℚ)
    (hC : Closed dag) (hS : SingletonPools dag) (fuel node : Nat)
    (hnode : node ∈ dag.nodes) (rng1 rng2 : MersenneTwister) :
    (Sample fuel node dag qn qi rng1).map Prod.fst =
      (Sample fuel node dag qn qi rng2).map Prod.fst := by
  obtain ⟨ihR, ihL, ihV⟩ := traversal_rng_independent dag qn qi hC hS fuel
  have htrav : (RunTraversal fuel ⟨dag, qn, qi⟩ node rng1).map Prod.fst =
      (RunTraversal fuel ⟨dag, qn, qi⟩ node rng2).map Prod.fst := by
    unfold RunTraversal
    dsimp only
    have h1 := ihR node ((SampleGraph.mk [] []).addVertex node) rng1 rng2 hnode
    cases hx : SampleRootward fuel ⟨dag, qn, qi⟩
        ((SampleGraph.mk [] []).addVertex node) rng1 node with
    | error e1 =>
      cases hy : SampleRootward fuel ⟨dag, qn, qi⟩
          ((SampleGraph.mk [] []).addVertex node) rng2 node with
      | error e2 =>
        rw [hx, hy] at h1; simp only [Except.map] at h1
        simp only [Except.error.injEq] at h1
        dsimp only; simp [h1, Except.map]
      | ok gr2 => rw [hx, hy] at h1; simp only [Except.map] at h1; exact absurd h1 (by simp)
    | ok gr1 =>
      cases hy : SampleRootward fuel ⟨dag, qn, qi⟩
          ((SampleGraph.mk [] []).addVertex node) rng2 node with
      | error e2 => rw [hx, hy] at h1; simp only [Except.map] at h1; exact absurd h1 (by simp)
      | ok gr2 =>
        rw [hx, hy] at h1
        simp only [Except.map] at h1
        have hg : gr1.1 = gr2.1 := by simpa using h1
        dsimp only
        rw [← hg]
        have h2 := ihL node .left gr1.1 gr1.2 gr2.2 hnode
        cases hx2 : SampleLeafward fuel ⟨dag, qn, qi⟩ gr1.1 gr1.2 node .left with
        | error e1 =>
          cases hy2 : SampleLeafward fuel ⟨dag, qn, qi⟩ gr1.1 gr2.2 node .left with
          | error e2 =>
            rw [hx2, hy2] at h2; simp only [Except.map] at h2
            simp only [Except.error.injEq] at h2
            dsimp only; simp [h2, Except.map]
          | ok gs2 => rw [hx2, hy2] at h2; simp only [Except.map] at h2; exact absurd h2 (by simp)
        | ok gs1 =>
          cases hy2 : SampleLeafward fuel ⟨dag, qn, qi⟩ gr1.1 gr2.2 node .left with
          | error e2 => rw [hx2, hy2] at h2; simp only [Except.map] at h2; exact absurd h2 (by simp)
          | ok gs2 =>
            rw [hx2, hy2] at h2
            simp only [Except.map] at h2
            have hg2 : gs1.1 = gs2.1 := by simpa using h2
            dsimp only
            rw [← hg2]
            exact ihL node .right gs1.1 gs1.2 gs2.2 hnode
  unfold Sample
  cases hx : RunTraversal fuel ⟨dag, qn, qi⟩ node rng1 with
  | error e1 =>
    cases hy : RunTraversal fuel ⟨dag, qn, qi⟩ node rng2 with
    | error e2 =>
      rw [hx, hy] at htrav; simp only [Except.map] at htrav
      simp only [Except.error.injEq] at htrav
      dsimp only; simp [htrav, Except.map]
    | ok gr2 => rw [hx, hy] at htrav; simp only [Except.map] at htrav; exact absurd htrav (by simp)
  | ok gr1 =>
    cases hy : RunTraversal fuel ⟨dag, qn, qi⟩ node rng2 with
    | error e2 => rw [hx, hy] at htrav; simp only [Except.map] at htrav; exact absurd htrav (by simp)
    | ok gr2 =>
      rw [hx, hy] at htrav
      simp only [Except.map] at htrav
      have hg : gr1.1 = gr2.1 := by simpa using htrav
      dsimp only
      rw [hg]
      cases hf : FindRoot (ConnectAllVertices gr2.1) with
      | none => dsimp only
      | some root =>
        dsimp only
        cases hb : BuildTree fuel dag (ConnectAllVertices gr2.1) root with
        | error e => dsimp only
        | ok t => dsimp only; simp [Except.map]

/-- C10 (witness): the three-taxon example DAG encodes a single topology;
two different generator states yield that same tree. -/
theorem singleton_pools_deterministic_witness :
    (Sample 12 3 dagEx unitProbs unitProbs ⟨0⟩).map Prod.fst =
      (Sample 12 3 dagEx unitProbs unitProbs ⟨12345⟩).map Prod.fst ∧
    (Sample 12 3 dagEx unitProbs unitProbs ⟨0⟩).map Prod.fst =
      Except.ok (.join1 (.join (.leaf 0) (.join (.leaf 1) (.leaf 2) 3) 4) 5) := by
  exact ⟨singleton_pools_deterministic dagEx unitProbs unitProbs (by decide) (by decide)
    12 3 (by decide) ⟨0⟩ ⟨12345⟩, by decide⟩

/-! Claim C9: reproducibility under reseeding. -/

/-- C9: setting the same seed on a sampler in any two prior generator
states reproduces the entire sequence of sampled trees for the same
sequence of DAG and probability-table inputs; in particular two `Sample`
calls after the same `SetSeed` return identical trees. -/
theorem set_seed_reproduces_sequence (rng1 rng2 : MersenneTwister) (seed : Nat)
    (calls : List SampleCall) :
    SampleSequence (SetSeed rng1 seed) calls =
      SampleSequence (SetSeed rng2 seed) calls := rfl

/-! Claim C8: the traversal terminates on finite acyclic DAGs. -/

theorem getD_mem_of_lt {α : Type _} (l : List α) (i : Nat) (d : α)
    (h : i < l.length) : l.getD i d ∈ l := by
  induction l generalizing i with
  | nil => simp at h
  | cons a t ih =>
    cases i with
    | zero => simp
    | succ i' =>
      simp only [List.getD_cons_succ]
      exact List.mem_cons_of_mem _
        (ih i' (by simpa using Nat.succ_lt_succ_iff.mp (by simpa using h)))

theorem parent_choice_mem (ses : SamplingSession) (rng : MersenneTwister)
    (left right : List (Nat × Nat)) (h : ¬(left = [] ∧ right = [])) :
    (SampleParentNodeAndEdge ses rng left right).1 ∈ left ++ right := by
  unfold SampleParentNodeAndEdge
  dsimp only
  have hne : (left ++ right).map (fun pr => ses.inverted_probabilities pr.2) ≠ [] := by
    simp only [ne_eq, List.map_eq_nil_iff, List.append_eq_nil]
    intro hh
    exact h hh
  have hlen := discretePick_lt_length _
    (rng.draw.1 * ((left ++ right).map fun pr => ses.inverted_probabilities pr.2).sum) hne
  rw [List.length_map, List.length_append] at hlen
  by_cases hb : discretePick ((left ++ right).map fun pr => ses.inverted_probabilities pr.2)
      (rng.draw.1 * ((left ++ right).map fun pr => ses.inverted_probabilities pr.2).sum)
      < left.length
  · simp only [hb, if_true]
    exact List.mem_append_left _ (getD_mem_of_lt _ _ _ hb)
  · simp only [hb, if_false]
    exact List.mem_append_right _ (getD_mem_of_lt _ _ _ (by omega))

theorem child_choice_mem (ses : SamplingSession) (rng : MersenneTwister)
    (neighbors : List (Nat × Nat)) (h : neighbors ≠ []) :
    (SampleChildNodeAndEdge ses rng neighbors).1 ∈ neighbors := by
  unfold SampleChildNodeAndEdge
  dsimp only
  have hne : neighbors.map (fun ce => ses.normalized_sbn_parameters ce.2) ≠ [] := by
    simpa using h
  have hlen := discretePick_lt_length _
    (rng.draw.1 * (neighbors.map fun ce => ses.normalized_sbn_parameters ce.2).sum) hne
  rw [List.length_map] at hlen
  exact getD_mem_of_lt _ _ _ hlen

theorem traversal_fuel_sufficient (dag : SubsplitDAG) (qn qi : Nat → ℚ)
    (rootRank leafRank : Nat → Nat) (L : Nat)
    (hC : Closed dag)
    (hrr : ∀ n ∈ dag.nodes, ∀ k : SubsplitClade, ∀ pr ∈ dag.rootward n k,
       rootRank pr.1 < rootRank n)
    (hlr : ∀ n ∈ dag.nodes, ∀ k : SubsplitClade, ∀ ce ∈ dag.leafward n k,
       leafRank ce.1 < leafRank n)
    (hLb : ∀ n ∈ dag.nodes, leafRank n ≤ L) : ∀ fuel : Nat,
    (∀ n g rng, n ∈ dag.nodes → rootRank n * (2 * L + 3) + 1 < fuel →
      ∃ out, SampleRootward fuel ⟨dag, qn, qi⟩ g rng n = .ok out) ∧
    (∀ n k g rng, n ∈ dag.nodes → 2 * leafRank n + 1 < fuel →
      ∃ out, SampleLeafward fuel ⟨dag, qn, qi⟩ g rng n k = .ok out) ∧
    (∀ n dir k g rng, n ∈ dag.nodes → visitMeasure rootRank leafRank L dir n < fuel →
      ∃ out, VisitNode fuel ⟨dag, qn, qi⟩ g rng n dir k = .ok out) := by
  intro fuel
  induction fuel with
  | zero => exact ⟨fun n g rng hn hm => absurd hm (by omega),
      fun n k g rng hn hm => absurd hm (by omega),
      fun n dir k g rng hn hm => absurd hm (by omega)⟩
  | succ fuel ih =>
    obtain ⟨ihR, ihL, ihV⟩ := ih
    refine ⟨?_, ?_, ?_⟩
    · intro n g rng hn hm
      simp only [SampleRootward]
      by_cases he : dag.rootward n .left = [] ∧ dag.rootward n .right = []
      · exact ⟨(g, rng), by simp [he]⟩
      · have hpm := parent_choice_mem ⟨dag, qn, qi⟩ rng
          (dag.rootward n .left) (dag.rootward n .right) he
        set pe := SampleParentNodeAndEdge ⟨dag, qn, qi⟩ rng
          (dag.rootward n .left) (dag.rootward n .right) with hpe
        have hrank : rootRank pe.1.1 < rootRank n := by
          rcases List.mem_append.mp hpm with hm2 | hm2
          · exact hrr n hn .left pe.1 hm2
          · exact hrr n hn .right pe.1 hm2
        have hnd : pe.1.1 ∈ dag.nodes := by
          rcases List.mem_append.mp hpm with hm2 | hm2
          · exact (hC n hn .left).1 pe.1 hm2
          · exact (hC n hn .right).1 pe.1 hm2
        have hmeas : visitMeasure rootRank leafRank L .leafward pe.1.1 < fuel := by
          simp only [visitMeasure]
          have h1 : (rootRank pe.1.1 + 1) * (2 * L + 3) ≤ rootRank n * (2 * L + 3) :=
            Nat.mul_le_mul_right _ (by omega)
          omega
        obtain ⟨out, hout⟩ := ihV pe.1.1 .leafward (dag.edges pe.1.2).clade
          (g.addLine ⟨pe.1.2, (dag.edges pe.1.2).parent, (dag.edges pe.1.2).child,
            (dag.edges pe.1.2).clade⟩) pe.2 hnd hmeas
        exact ⟨out, by simp only [he, if_false]; exact hout⟩
    · intro n k g rng hn hm
      simp only [SampleLeafward]
      by_cases he : dag.leafward n k = []
      · exact ⟨(g, rng), by simp [he]⟩
      · have hcm := child_choice_mem ⟨dag, qn, qi⟩ rng (dag.leafward n k) he
        set ce := SampleChildNodeAndEdge ⟨dag, qn, qi⟩ rng (dag.leafward n k) with hce
        have hrank : leafRank ce.1.1 < leafRank n := hlr n hn k ce.1 hcm
        have hnd : ce.1.1 ∈ dag.nodes := (hC n hn k).2 ce.1 hcm
        have hmeas : visitMeasure rootRank leafRank L .rootward ce.1.1 < fuel := by
          simp only [visitMeasure]
          omega
        obtain ⟨out, hout⟩ := ihV ce.1.1 .rootward k
          (g.addLine ⟨ce.1.2, (dag.edges ce.1.2).parent, (dag.edges ce.1.2).child,
            (dag.edges ce.1.2).clade⟩) ce.2 hnd hmeas
        exact ⟨out, by simp only [he, if_false]; exact hout⟩
    · intro n dir k g rng hn hm
      cases dir with
      | rootward =>
        simp only [visitMeasure] at hm
        have hm1 : 2 * leafRank n + 1 < fuel := by omega
        obtain ⟨out1, hout1⟩ := ihL n .left (g.addVertex n) rng hn hm1
        obtain ⟨out2, hout2⟩ := ihL n .right out1.1 out1.2 hn hm1
        refine ⟨out2, ?_⟩
        simp only [VisitNode]
        rw [hout1]
        exact hout2
      | leafward =>
        simp only [visitMeasure] at hm
        have hmR : rootRank n * (2 * L + 3) + 1 < fuel := by
          have : rootRank n * (2 * L + 3) + (2 * L + 3) = (rootRank n + 1) * (2 * L + 3) := by
            ring
          omega
        have hmL : 2 * leafRank n + 1 < fuel := by
          have hb := hLb n hn
          have h1 : 2 * L + 3 ≤ (rootRank n + 1) * (2 * L + 3) :=
            Nat.le_mul_of_pos_left _ (by omega)
          omega
        obtain ⟨out1, hout1⟩ := ihR n (g.addVertex n) rng hn hmR
        obtain ⟨out2, hout2⟩ := ihL n (Bitset.Opposite k) out1.1 out1.2 hn hmL
        refine ⟨out2, ?_⟩
        simp only [VisitNode]
        rw [hout1]
        exact hout2

/-- C8: on a finite acyclic subsplit DAG — witnessed by a rootward rank
that strictly decreases along every rootward step and a bounded leafward
rank that strictly decreases along every leafward step — the mutually
recursive traversal started at any focus node terminates: with fuel
beyond the rank-derived bound, the traversal runs to completion, climbing
stopping at a node with no rootward neighbors and each descent stopping
at nodes with no leafward neighbors on the chosen clade. -/
theorem traversal_terminates (dag : SubsplitDAG) (qn qi : Nat → ℚ)
    (rootRank leafRank : Nat → Nat) (L : Nat)
    (hC : Closed dag)
    (hrr : ∀ n ∈ dag.nodes, ∀ k : SubsplitClade, ∀ pr ∈ dag.rootward n k,
       rootRank pr.1 < rootRank n)
    (hlr : ∀ n ∈ dag.nodes, ∀ k : SubsplitClade, ∀ ce ∈ dag.leafward n k,
       leafRank ce.1 < leafRank n)
    (hLb : ∀ n ∈ dag.nodes, leafRank n ≤ L)
    (node fuel : Nat) (rng : MersenneTwister) (hnode : node ∈ dag.nodes)
    (hfuel : rootRank node * (2 * L + 3) + 2 * L + 2 < fuel) :
    ∃ out, RunTraversal fuel ⟨dag, qn, qi⟩ node rng = .ok out := by
  obtain ⟨ihR, ihL, ihV⟩ :=
    traversal_fuel_sufficient dag qn qi rootRank leafRank L hC hrr hlr hLb fuel
  have hmL : 2 * leafRank node + 1 < fuel := by
    have := hLb node hnode
    omega
  obtain ⟨out1, hout1⟩ := ihR node ((SampleGraph.mk [] []).addVertex node) rng hnode
    (by omega)
  obtain ⟨out2, hout2⟩ := ihL node .left out1.1 out1.2 hnode hmL
  obtain ⟨out3, hout3⟩ := ihL node .right out2.1 out2.2 hnode hmL
  refine ⟨out3, ?_⟩
  unfold RunTraversal
  dsimp only
  rw [hout1]
  dsimp only
  rw [hout2]
  dsimp only
  exact hout3

/-- C8 (witness): on the three-taxon example DAG with its concrete ranks,
the traversal from focus node 3 completes with fuel 27. -/
theorem traversal_terminates_witness :
    ∃ out, RunTraversal 27 ⟨dagEx, unitProbs, unitProbs⟩ 3 rng0 = .ok out := by
  exact traversal_terminates dagEx unitProbs unitProbs exRootRank exLeafRank 3
    (by decide) (by decide) (by decide) (by decide) 3 27 rng0 (by decide) (by decide)

/-! Helper lemmas for the traversal contracts (claims C1 and C3). -/

theorem childCount_append (L1 L2 : List Line) (v : Nat) (k : SubsplitClade) :
    childCount (L1 ++ L2) v k = childCount L1 v k + childCount L2 v k := by
  unfold childCount
  exact List.countP_append _ _ _

theorem childCount_cons (l : Line) (L : List Line) (v : Nat) (k : SubsplitClade) :
    childCount (l :: L) v k =
      (if l.parent = v ∧ l.clade = k then 1 else 0) + childCount L v k := by
  unfold childCount
  rw [List.countP_cons]
  by_cases h : l.parent = v ∧ l.clade = k
  · simp [h, Nat.add_comm]
  · simp [h]

theorem childCount_nil (v : Nat) (k : SubsplitClade) : childCount [] v k = 0 := rfl

theorem parentCount_append (L1 L2 : List Line) (v : Nat) :
    parentCount (L1 ++ L2) v = parentCount L1 v + parentCount L2 v := by
  unfold parentCount
  exact List.countP_append _ _ _

theorem parentCount_cons (l : Line) (L : List Line) (v : Nat) :
    parentCount (l :: L) v = (if l.child = v then 1 else 0) + parentCount L v := by
  unfold parentCount
  rw [List.countP_cons]
  by_cases h : l.child = v
  · simp [h, Nat.add_comm]
  · simp [h]

theorem parentCount_nil (v : Nat) : parentCount [] v = 0 := rfl

theorem roots_zero_iff (dag : SubsplitDAG) (dV : List Nat) :
    dV.countP (fun d => decide (isRootVertex dag d)) = 0 ↔
      ∀ d ∈ dV, ¬isRootVertex dag d := by
  rw [List.countP_eq_zero]
  simp

theorem rootsCount_append (dag : SubsplitDAG) (dV1 dV2 : List Nat) :
    (dV1 ++ dV2).countP (fun d => decide (isRootVertex dag d)) =
      dV1.countP (fun d => decide (isRootVertex dag d)) +
        dV2.countP (fun d => decide (isRootVertex dag d)) :=
  List.countP_append _ _ _

theorem rootsCount_cons (dag : SubsplitDAG) (d : Nat) (dV : List Nat) :
    (d :: dV).countP (fun dd => decide (isRootVertex dag dd)) =
      (if isRootVertex dag d then 1 else 0) +
        dV.countP (fun dd => decide (isRootVertex dag dd)) := by
  rw [List.countP_cons]
  by_cases h : isRootVertex dag d
  · simp [h, Nat.add_comm]
  · simp [h]

theorem taxa_nonempty (dag : SubsplitDAG) (wf : WF dag) (n : Nat)
    (hn : n ∈ dag.nodes) : taxaOf dag n ≠ ∅ := by
  obtain ⟨_, _, _, wfLeaf, wfNE, _, _⟩ := wf
  by_cases hl : isLeafVertex dag n
  · rw [wfLeaf n hn hl]
    simp
  · intro hemp
    have h1 : dag.cladeTaxa n .left = ∅ ∧ dag.cladeTaxa n .right = ∅ := by
      unfold taxaOf at hemp
      exact Finset.union_eq_empty.mp hemp
    exact hl ⟨(wfNE n hn hl .left).mpr h1.1, (wfNE n hn hl .right).mpr h1.2⟩

theorem opposite_opposite (k : SubsplitClade) : Bitset.Opposite (Bitset.Opposite k) = k := by
  cases k <;> rfl

theorem opposite_ne (k : SubsplitClade) : Bitset.Opposite k ≠ k := by
  cases k <;> decide

theorem eq_opposite_of_ne {j k : SubsplitClade} (h : j ≠ k) : j = Bitset.Opposite k := by
  cases j <;> cases k <;> first | rfl | exact absurd rfl h

theorem taxaOf_clade_union (dag : SubsplitDAG) (p : Nat) (k : SubsplitClade) :
    taxaOf dag p = dag.cladeTaxa p k ∪ dag.cladeTaxa p (Bitset.Opposite k) := by
  cases k
  · rfl
  · unfold taxaOf Bitset.Opposite
    exact Finset.union_comm _ _

theorem subset_disjoint_empty {s a b : Finset Nat} (hsa : s ⊆ a) (hsb : s ⊆ b)
    (hd : Disjoint a b) : s = ∅ := by
  have := Finset.subset_inter hsa hsb
  rw [Finset.disjoint_iff_inter_eq_empty.mp hd] at this
  exact Finset.subset_empty.mp this

theorem clade_ssubset_taxa (dag : SubsplitDAG) (p : Nat) (k : SubsplitClade)
    (hdisj : Disjoint (dag.cladeTaxa p .left) (dag.cladeTaxa p .right))
    (hopp : dag.cladeTaxa p (Bitset.Opposite k) ≠ ∅) :
    dag.cladeTaxa p k ⊂ taxaOf dag p := by
  rw [taxaOf_clade_union dag p k]
  constructor
  · exact Finset.subset_union_left
  · intro hsub
    have hsub2 : dag.cladeTaxa p (Bitset.Opposite k) ⊆ dag.cladeTaxa p k :=
      fun x hx => hsub (Finset.mem_union_right _ hx)
    have hdisj2 : Disjoint (dag.cladeTaxa p k) (dag.cladeTaxa p (Bitset.Opposite k)) := by
      cases k
      · exact hdisj
      · exact hdisj.symm
    exact hopp (subset_disjoint_empty hsub2 Finset.Subset.rfl hdisj2)

theorem addVertex_fresh (g : SampleGraph) (n : Nat) (h : n ∉ g.vertices) :
    g.addVertex n = ⟨g.vertices ++ [n], g.lines⟩ := by
  simp [SampleGraph.addVertex, h]

theorem not_subset_clade_of_subset_taxa (dag : SubsplitDAG) (wf : WF dag)
    (v : Nat) (hv : v ∈ dag.nodes) (p : Nat) (k : SubsplitClade)
    (hdisj : Disjoint (dag.cladeTaxa p .left) (dag.cladeTaxa p .right))
    (hsub : taxaOf dag v ⊆ dag.cladeTaxa p k) :
    ¬taxaOf dag v ⊆ dag.cladeTaxa p (Bitset.Opposite k) := by
  intro hsub2
  have hdisj2 : Disjoint (dag.cladeTaxa p k) (dag.cladeTaxa p (Bitset.Opposite k)) := by
    cases k
    · exact hdisj
    · exact hdisj.symm
  exact taxa_nonempty dag wf v hv (subset_disjoint_empty hsub hsub2 hdisj2)

theorem wf_rw {dag : SubsplitDAG} (wf : WF dag) :
    ∀ n ∈ dag.nodes, ∀ k : SubsplitClade, ∀ pr ∈ dag.rootward n k,
      pr.1 ∈ dag.nodes ∧ dag.edges pr.2 = ⟨pr.1, n, k⟩ ∧
        (n, pr.2) ∈ dag.leafward pr.1 k := wf.1

theorem wf_lw {dag : SubsplitDAG} (wf : WF dag) :
    ∀ n ∈ dag.nodes, ∀ k : SubsplitClade, ∀ ce ∈ dag.leafward n k,
      ce.1 ∈ dag.nodes ∧ dag.edges ce.2 = ⟨n, ce.1, k⟩ ∧
        taxaOf dag ce.1 = dag.cladeTaxa n k ∧
        ((n, ce.2) ∈ dag.rootward ce.1 .left ∨ (n, ce.2) ∈ dag.rootward ce.1 .right) :=
  wf.2.1

theorem wf_disj {dag : SubsplitDAG} (wf : WF dag) :
    ∀ n ∈ dag.nodes, Disjoint (dag.cladeTaxa n .left) (dag.cladeTaxa n .right) :=
  wf.2.2.1

theorem wf_leaf {dag : SubsplitDAG} (wf : WF dag) :
    ∀ n ∈ dag.nodes, isLeafVertex dag n → taxaOf dag n = {n} := wf.2.2.2.1

theorem wf_ne {dag : SubsplitDAG} (wf : WF dag) :
    ∀ n ∈ dag.nodes, ¬isLeafVertex dag n →
      ∀ k, dag.leafward n k = [] ↔ dag.cladeTaxa n k = ∅ := wf.2.2.2.2.1

theorem wf_int {dag : SubsplitDAG} (wf : WF dag) :
    ∀ n ∈ dag.nodes, ¬isLeafVertex dag n → ¬isRootVertex dag n →
      dag.cladeTaxa n .left ≠ ∅ ∧ dag.cladeTaxa n .right ≠ ∅ := wf.2.2.2.2.2.1

theorem wf_root {dag : SubsplitDAG} (wf : WF dag) :
    ∀ n ∈ dag.nodes, isRootVertex dag n → taxaOf dag n = dag.allTaxa :=
  wf.2.2.2.2.2.2

theorem PostR_at_root (dag : SubsplitDAG) (g : SampleGraph) (m : Nat)
    (he : isRootVertex dag m) : PostR dag g m g := by
  refine ⟨[], [], ⟨by simp, by simp, by simp, List.nodup_nil, by simp, by simp⟩,
    fun _ => ⟨rfl, rfl⟩, by simp, ?_, ?_, ?_⟩
  · intro v j
    simp [childCount_nil]
  · intro v
    simp [parentCount_nil, he]
  · simp [he]

theorem PostL_empty (dag : SubsplitDAG) (g : SampleGraph) (n : Nat)
    (k : SubsplitClade) (he : dag.leafward n k = []) : PostL dag g n k g := by
  refine ⟨[], [], ⟨by simp, by simp, by simp, List.nodup_nil, by simp, by simp⟩,
    by simp, ?_, ?_, ?_⟩
  · intro v j
    simp only [childCount_nil]
    by_cases hv : v = n ∧ j = k
    · obtain ⟨rfl, rfl⟩ := hv
      simp [indC, he]
    · rw [if_neg hv]
      simp
  · intro v
    simp [parentCount_nil]
  · simp

theorem sampleLeafward_empty_inv (fuel : Nat) (ses : SamplingSession)
    (g : SampleGraph) (rng : MersenneTwister) (n : Nat) (k : SubsplitClade)
    (out : SampleGraph × MersenneTwister) (he : ses.dag.leafward n k = [])
    (h : SampleLeafward fuel ses g rng n k = .ok out) : out = (g, rng) := by
  cases fuel with
  | zero => simp [SampleLeafward] at h
  | succ f =>
    simp only [SampleLeafward] at h
    rw [if_pos he] at h
    exact (Except.ok.inj h).symm

theorem nodup_append_fresh (l1 l2 : List Nat) (h1 : l1.Nodup) (h2 : l2.Nodup)
    (hf : ∀ d ∈ l2, d ∉ l1) : (l1 ++ l2).Nodup := by
  rw [List.nodup_append]
  exact ⟨h1, h2, fun a ha hb => hf a hb ha⟩

theorem traversal_contract (dag : SubsplitDAG) (qn qi : Nat → ℚ) (wf : WF dag) :
    ∀ fuel : Nat,
    (∀ m g rng out, PreR dag g m →
       SampleRootward fuel ⟨dag, qn, qi⟩ g rng m = .ok out → PostR dag g m out.1) ∧
    (∀ n k g rng out, PreL dag g n k →
       SampleLeafward fuel ⟨dag, qn, qi⟩ g rng n k = .ok out → PostL dag g n k out.1) ∧
    (∀ p k g rng out, PreVNLeafward dag g p k →
       VisitNode fuel ⟨dag, qn, qi⟩ g rng p .leafward k = .ok out →
       PostVNLeafward dag g p k out.1) ∧
    (∀ c k g rng out, PreVNRootward dag g c →
       VisitNode fuel ⟨dag, qn, qi⟩ g rng c .rootward k = .ok out →
       PostVNRootward dag g c out.1) := by
  intro fuel
  induction fuel with
  | zero =>
    refine ⟨?_, ?_, ?_, ?_⟩
    · intro m g rng out _ h
      simp [SampleRootward] at h
    · intro n k g rng out _ h
      simp [SampleLeafward] at h
    · intro p k g rng out _ h
      simp [VisitNode] at h
    · intro c k g rng out _ h
      simp [VisitNode] at h
  | succ fuel ih =>
    obtain ⟨ihR, ihL, ihVL, ihVR⟩ := ih
    refine ⟨?_, ?_, ?_, ?_⟩
    · -- SampleRootward
      intro m g rng out pre hok
      obtain ⟨⟨hnd, hsub⟩, hm, htax, hnr⟩ := pre
      simp only [SampleRootward] at hok
      by_cases he : dag.rootward m .left = [] ∧ dag.rootward m .right = []
      · rw [if_pos he] at hok
        have hout : (g, rng) = out := Except.ok.inj hok
        rw [← hout]
        exact PostR_at_root dag g m he
      · rw [if_neg he] at hok
        have hnotrootm : ¬isRootVertex dag m := fun hr => he hr
        have hpm := parent_choice_mem ⟨dag, qn, qi⟩ rng
          (dag.rootward m .left) (dag.rootward m .right) he
        set pe := SampleParentNodeAndEdge ⟨dag, qn, qi⟩ rng
          (dag.rootward m .left) (dag.rootward m .right) with hpedef
        obtain ⟨kdir, hmem⟩ : ∃ kd, pe.1 ∈ dag.rootward m kd := by
          rcases List.mem_append.mp hpm with h | h
          · exact ⟨.left, h⟩
          · exact ⟨.right, h⟩
        obtain ⟨hpnodes, hrec, hsym⟩ := wf_rw wf m (hsub m hm) kdir pe.1 hmem
        rw [hrec] at hok
        dsimp only at hok
        have htaxam : taxaOf dag m = dag.cladeTaxa pe.1.1 kdir :=
          (wf_lw wf pe.1.1 hpnodes kdir (m, pe.1.2) hsym).2.2.1
        have hkne : dag.cladeTaxa pe.1.1 kdir ≠ ∅ := by
          rw [← htaxam]
          exact taxa_nonempty dag wf m (hsub m hm)
        have hnleafp : ¬isLeafVertex dag pe.1.1 := by
          intro hl
          cases kdir with
          | left => rw [hl.1] at hsym; exact absurd hsym (by simp)
          | right => rw [hl.2] at hsym; exact absurd hsym (by simp)
        have hproper : ¬isRootVertex dag pe.1.1 →
            taxaOf dag m ⊂ taxaOf dag pe.1.1 := by
          intro hnrootp
          rw [htaxam]
          apply clade_ssubset_taxa dag pe.1.1 kdir (wf_disj wf _ hpnodes)
          have hint := wf_int wf pe.1.1 hpnodes hnleafp hnrootp
          cases kdir with
          | left => exact hint.2
          | right => exact hint.1
        have hfresh : pe.1.1 ∉ g.vertices := by
          by_cases hrootp : isRootVertex dag pe.1.1
          · intro hin
            rcases hnr pe.1.1 hin with heq | hnrv
            · rw [heq] at hrootp
              exact hnotrootm hrootp
            · exact hnrv hrootp
          · intro hin
            have hsb := htax pe.1.1 hin
            have hp := hproper hrootp
            exact hp.ne (Finset.Subset.antisymm hp.subset hsb)
        have hmsub : taxaOf dag m ⊆ taxaOf dag pe.1.1 := by
          rw [htaxam, taxaOf_clade_union dag pe.1.1 kdir]
          exact Finset.subset_union_left
        have pre2 : PreVNLeafward dag
            (g.addLine ⟨pe.1.2, pe.1.1, m, kdir⟩) pe.1.1 kdir := by
          refine ⟨⟨hnd, hsub⟩, hfresh, hpnodes, hkne, ?_, ?_⟩
          · intro v hv
            rw [← htaxam]
            exact htax v hv
          · intro v hv
            rcases hnr v hv with heq | hnrv
            · rw [heq]
              exact hnotrootm
            · exact hnrv
        have post := ihVL pe.1.1 kdir (g.addLine ⟨pe.1.2, pe.1.1, m, kdir⟩)
          pe.2 out pre2 hok
        obtain ⟨dV, dL, ⟨hver, hlin, hfreshV, hndV, hnodesV, hlineV⟩,
          hpdv, htaxaV, hccV, hpcV, hrootsV⟩ := post
        refine ⟨dV, ⟨pe.1.2, pe.1.1, m, kdir⟩ :: dL, ?_, ?_, ?_, ?_, ?_, ?_⟩
        · refine ⟨hver, ?_, hfreshV, hndV, hnodesV, ?_⟩
          · rw [hlin]
            simp [SampleGraph.addLine]
          · intro l hl
            rcases List.mem_cons.mp hl with rfl | hl2
            · exact ⟨Or.inr (by simp), hpnodes, hsym⟩
            · obtain ⟨hc, hp2, hm2⟩ := hlineV l hl2
              rcases hc with hc | hc
              · exact ⟨Or.inl hc, hp2, hm2⟩
              · simp at hc
        · intro hr
          exact absurd hr hnotrootm
        · intro d hd
          rcases htaxaV d hd with heq | hss | hdisj2 | hroot
          · subst heq
            by_cases hrootp : isRootVertex dag pe.1.1
            · exact Or.inr (Or.inr hrootp)
            · exact Or.inl (hproper hrootp)
          · exact Or.inl (ssubset_of_subset_of_ssubset hmsub hss)
          · rw [htaxam]
            exact Or.inr (Or.inl hdisj2)
          · exact Or.inr (Or.inr hroot)
        · intro v j
          rw [childCount_cons]
          dsimp only
          have h2 := hccV v j
          by_cases hv : v = pe.1.1
          · by_cases hj : j = kdir
            · rw [if_pos (show pe.1.1 = v ∧ kdir = j from ⟨hv.symm, hj.symm⟩)]
              rw [if_pos hv] at h2
              have hjne : ¬(j = Bitset.Opposite kdir) := by
                rw [hj]
                exact (opposite_ne kdir).symm
              rw [if_neg hjne] at h2
              rw [h2, if_pos (show v ∈ dV by rw [hv]; exact hpdv)]
              have hne2 : dag.leafward v j ≠ [] := by
                rw [hv, hj]
                intro hh
                rw [hh] at hsym
                exact absurd hsym (by simp)
              simp [indC, hne2]
            · rw [if_neg (show ¬(pe.1.1 = v ∧ kdir = j) from fun hh => hj hh.2.symm)]
              rw [if_pos hv, if_pos (eq_opposite_of_ne hj)] at h2
              rw [h2, if_pos (show v ∈ dV by rw [hv]; exact hpdv)]
              rw [hv]
              simp
          · rw [if_neg (show ¬(pe.1.1 = v ∧ kdir = j) from fun hh => hv hh.1.symm)]
            rw [if_neg hv] at h2
            rw [h2]
            simp
        · intro v
          rw [parentCount_cons]
          dsimp only
          rw [if_neg hnotrootm]
          have h2 := hpcV v
          by_cases hv : m = v
          · rw [if_pos hv]
            have hmdv : v ∉ dV := fun hin => hfreshV v hin (hv ▸ hm)
            rw [if_neg (show ¬(v ∈ dV ∧ ¬isRootVertex dag v) from fun hh => hmdv hh.1)] at h2
            rw [h2, if_pos (Or.inl hv.symm)]
          · rw [if_neg hv, h2]
            by_cases h3 : v ∈ dV ∧ ¬isRootVertex dag v
            · rw [if_pos h3, if_pos (Or.inr h3)]
            · have hng : ¬(v = m ∨ (v ∈ dV ∧ ¬isRootVertex dag v)) := by
                intro hh
                rcases hh with hh | hh
                · exact hv hh.symm
                · exact h3 hh
              rw [if_neg h3, if_neg hng]
        · rw [hrootsV, if_neg hnotrootm]
    · -- SampleLeafward
      intro n k g rng out pre hok
      obtain ⟨⟨hnd, hsub⟩, hm, htax⟩ := pre
      simp only [SampleLeafward] at hok
      by_cases he : dag.leafward n k = []
      · rw [if_pos he] at hok
        have hout : (g, rng) = out := Except.ok.inj hok
        rw [← hout]
        exact PostL_empty dag g n k he
      · rw [if_neg he] at hok
        have hcm := child_choice_mem ⟨dag, qn, qi⟩ rng (dag.leafward n k) he
        set ce := SampleChildNodeAndEdge ⟨dag, qn, qi⟩ rng (dag.leafward n k)
          with hcedef
        obtain ⟨hcnodes, hrec, htaxac, hsym⟩ := wf_lw wf n (hsub n hm) k ce.1 hcm
        rw [hrec] at hok
        dsimp only at hok
        have hnrootc : ¬isRootVertex dag ce.1.1 := by
          intro hr
          rcases hsym with hs | hs
          · rw [hr.1] at hs
            exact absurd hs (by simp)
          · rw [hr.2] at hs
            exact absurd hs (by simp)
        have hfresh : ce.1.1 ∉ g.vertices := by
          intro hin
          rcases htax ce.1.1 hin with hns | hroot
          · exact hns (by rw [htaxac])
          · exact hnrootc hroot
        have pre2 : PreVNRootward dag (g.addLine ⟨ce.1.2, n, ce.1.1, k⟩) ce.1.1 := by
          refine ⟨⟨hnd, hsub⟩, hfresh, hcnodes, hnrootc, ?_⟩
          intro v hv
          rw [htaxac]
          exact htax v hv
        have post := ihVR ce.1.1 k (g.addLine ⟨ce.1.2, n, ce.1.1, k⟩) ce.2 out
          pre2 hok
        obtain ⟨dV, dL, ⟨hver, hlin, hfreshV, hndV, hnodesV, hlineV⟩,
          hcdv, htaxaV, hccV, hpcV, hrootsV⟩ := post
        refine ⟨dV, ⟨ce.1.2, n, ce.1.1, k⟩ :: dL, ?_, ?_, ?_, ?_, ?_⟩
        · refine ⟨hver, ?_, hfreshV, hndV, hnodesV, ?_⟩
          · rw [hlin]
            simp [SampleGraph.addLine]
          · intro l hl
            rcases List.mem_cons.mp hl with rfl | hl2
            · exact ⟨Or.inl hcdv, hsub n hm, hcm⟩
            · obtain ⟨hc, hp2, hm2⟩ := hlineV l hl2
              rcases hc with hc | hc
              · exact ⟨Or.inl hc, hp2, hm2⟩
              · simp at hc
        · intro d hd
          have hx := htaxaV d hd
          rw [htaxac] at hx
          exact hx
        · intro v j
          rw [childCount_cons]
          dsimp only
          have h2 := hccV v j
          by_cases hv : v = n ∧ j = k
          · rw [if_pos (show n = v ∧ k = j from ⟨hv.1.symm, hv.2.symm⟩)]
            have hndv2 : v ∉ dV := by
              rw [hv.1]
              exact fun hin => hfreshV n hin hm
            rw [if_neg hndv2] at h2
            rw [h2, if_pos hv]
            simp [indC, he]
          · rw [if_neg (show ¬(n = v ∧ k = j) from
              fun hh => hv ⟨hh.1.symm, hh.2.symm⟩)]
            rw [if_neg hv, h2]
            simp
        · intro v
          rw [parentCount_cons]
          dsimp only
          have h2 := hpcV v
          by_cases hv : ce.1.1 = v
          · rw [if_pos hv]
            rw [if_neg (show ¬(v ∈ dV ∧ v ≠ ce.1.1) from fun hh => hh.2 hv.symm)] at h2
            rw [h2, if_pos (show v ∈ dV by rw [← hv]; exact hcdv)]
          · rw [if_neg hv, h2]
            by_cases h3 : v ∈ dV ∧ v ≠ ce.1.1
            · rw [if_pos h3, if_pos h3.1]
            · have hv2 : v ∉ dV := fun hin => h3 ⟨hin, fun he2 => hv he2.symm⟩
              rw [if_neg h3, if_neg hv2]
        · exact hrootsV
    · -- VisitNode leafward
      intro p k g rng out pre hok
      obtain ⟨⟨hnd, hsub⟩, hfresh, hpnodes, hkne, htax, hnroot⟩ := pre
      simp only [VisitNode] at hok
      cases hr : SampleRootward fuel ⟨dag, qn, qi⟩ (g.addVertex p) rng p with
      | error e =>
        rw [hr] at hok
        exact absurd hok (by simp)
      | ok gr =>
        rw [hr] at hok
        dsimp only at hok
        have hg1v : (g.addVertex p).vertices = g.vertices ++ [p] := by
          rw [addVertex_fresh g p hfresh]
        have hg1l : (g.addVertex p).lines = g.lines := by
          rw [addVertex_fresh g p hfresh]
        have hnd1 : (g.addVertex p).vertices.Nodup := by
          rw [hg1v]
          exact nodup_append_fresh _ _ hnd (List.nodup_singleton p)
            (by intro d hd; simp at hd; rw [hd]; exact hfresh)
        have hsub1 : ∀ v ∈ (g.addVertex p).vertices, v ∈ dag.nodes := by
          intro v hv
          rw [hg1v] at hv
          rcases List.mem_append.mp hv with h | h
          · exact hsub v h
          · simp at h
            rw [h]
            exact hpnodes
        have hclsub : dag.cladeTaxa p k ⊆ taxaOf dag p := by
          rw [taxaOf_clade_union dag p k]
          exact Finset.subset_union_left
        have hoppsub : dag.cladeTaxa p (Bitset.Opposite k) ⊆ taxaOf dag p := by
          rw [taxaOf_clade_union dag p (Bitset.Opposite k)]
          exact Finset.subset_union_left
        have hdisjk : Disjoint (dag.cladeTaxa p k)
            (dag.cladeTaxa p (Bitset.Opposite k)) := by
          have hd := wf_disj wf p hpnodes
          cases k
          · exact hd
          · exact hd.symm
        have hpmem1 : p ∈ (g.addVertex p).vertices := by
          rw [hg1v]
          exact List.mem_append_right _ (by simp)
        have pre2 : PreR dag (g.addVertex p) p := by
          refine ⟨⟨hnd1, hsub1⟩, hpmem1, ?_, ?_⟩
          · intro v hv
            rw [hg1v] at hv
            rcases List.mem_append.mp hv with h | h
            · exact (htax v h).trans hclsub
            · simp at h
              rw [h]
          · intro v hv
            rw [hg1v] at hv
            rcases List.mem_append.mp hv with h | h
            · exact Or.inr (hnroot v h)
            · simp at h
              exact Or.inl h
        have postR := ihR p (g.addVertex p) rng gr pre2 hr
        obtain ⟨dVR, dLR, ⟨hverR, hlinR, hfreshR, hndR, hnodesR, hlineR⟩,
          hRempty, htaxaR, hccR, hpcR, hrootsR⟩ := postR
        have hpdVR : p ∉ dVR := fun hin => hfreshR p hin hpmem1
        have hndgr : gr.1.vertices.Nodup := by
          rw [hverR]
          exact nodup_append_fresh _ _ hnd1 hndR hfreshR
        have hsubgr : ∀ v ∈ gr.1.vertices, v ∈ dag.nodes := by
          intro v hv
          rw [hverR] at hv
          rcases List.mem_append.mp hv with h | h
          · exact hsub1 v h
          · exact hnodesR v h
        have hnsubp : ¬taxaOf dag p ⊆ dag.cladeTaxa p (Bitset.Opposite k) := by
          intro hss
          exact hkne (subset_disjoint_empty Finset.Subset.rfl
            (hclsub.trans hss) hdisjk)
        have pre3 : PreL dag gr.1 p (Bitset.Opposite k) := by
          refine ⟨⟨hndgr, hsubgr⟩, ?_, ?_⟩
          · rw [hverR]
            exact List.mem_append_left _ hpmem1
          · intro v hv
            rw [hverR] at hv
            rcases List.mem_append.mp hv with h | h
            · rw [hg1v] at h
              rcases List.mem_append.mp h with h2 | h2
              · exact Or.inl (not_subset_clade_of_subset_taxa dag wf v (hsub v h2)
                  p k (wf_disj wf p hpnodes) (htax v h2))
              · simp at h2
                rw [h2]
                exact Or.inl hnsubp
            · rcases htaxaR v h with hss | hdisj2 | hroot
              · exact Or.inl (fun hsub2 => hss.ne
                  (Finset.Subset.antisymm hss.subset (hsub2.trans hoppsub)))
              · exact Or.inl (fun hsub2 => taxa_nonempty dag wf v (hnodesR v h)
                  (subset_disjoint_empty Finset.Subset.rfl (hsub2.trans hoppsub) hdisj2))
              · exact Or.inr hroot
        have postL := ihL p (Bitset.Opposite k) gr.1 gr.2 out pre3 hok
        obtain ⟨dVL, dLL, ⟨hverL, hlinL, hfreshL, hndL, hnodesL, hlineL⟩,
          htaxaL, hccL, hpcL, hrootsL⟩ := postL
        have hpdVL : p ∉ dVL := fun hin => hfreshL p hin
          (by rw [hverR]; exact List.mem_append_left _ hpmem1)
        have hdisjRL : ∀ d ∈ dVL, d ∉ dVR := by
          intro d hd hin
          exact hfreshL d hd (by rw [hverR]; exact List.mem_append_right _ hin)
        have hLnoroot : ∀ d ∈ dVL, ¬isRootVertex dag d :=
          (roots_zero_iff dag dVL).mp hrootsL
        refine ⟨p :: (dVR ++ dVL), dLR ++ dLL, ?_, ?_, ?_, ?_, ?_, ?_⟩
        · refine ⟨?_, ?_, ?_, ?_, ?_, ?_⟩
          · rw [hverL, hverR, hg1v]
            simp [List.append_assoc]
          · rw [hlinL, hlinR, hg1l, List.append_assoc]
          · intro d hd
            rcases List.mem_cons.mp hd with rfl | hd2
            · exact hfresh
            · rcases List.mem_append.mp hd2 with h | h
              · intro hin
                exact hfreshR d h (by rw [hg1v]; exact List.mem_append_left _ hin)
              · intro hin
                exact hfreshL d h (by
                  rw [hverR, hg1v]
                  exact List.mem_append_left _ (List.mem_append_left _ hin))
          · rw [List.nodup_cons]
            constructor
            · intro hin
              rcases List.mem_append.mp hin with h | h
              · exact hpdVR h
              · exact hpdVL h
            · exact nodup_append_fresh _ _ hndR hndL hdisjRL
          · intro d hd
            rcases List.mem_cons.mp hd with rfl | hd2
            · exact hpnodes
            · rcases List.mem_append.mp hd2 with h | h
              · exact hnodesR d h
              · exact hnodesL d h
          · intro l hl
            rcases List.mem_append.mp hl with h | h
            · obtain ⟨hc, hp2, hm2⟩ := hlineR l h
              rcases hc with hc | hc
              · exact ⟨Or.inl (List.mem_cons_of_mem _ (List.mem_append_left _ hc)),
                  hp2, hm2⟩
              · simp at hc
                exact ⟨Or.inl (by rw [hc]; exact List.mem_cons_self _ _), hp2, hm2⟩
            · obtain ⟨hc, hp2, hm2⟩ := hlineL l h
              rcases hc with hc | hc
              · exact ⟨Or.inl (List.mem_cons_of_mem _ (List.mem_append_right _ hc)),
                  hp2, hm2⟩
              · simp at hc
        · exact List.mem_cons_self _ _
        · intro d hd
          rcases List.mem_cons.mp hd with rfl | hd2
          · exact Or.inl rfl
          · rcases List.mem_append.mp hd2 with h | h
            · rcases htaxaR d h with hss | hdisj2 | hroot
              · exact Or.inr (Or.inl hss)
              · exact Or.inr (Or.inr (Or.inl (hdisj2.mono_right hclsub)))
              · exact Or.inr (Or.inr (Or.inr hroot))
            · exact Or.inr (Or.inr (Or.inl (hdisjk.symm.mono_left (htaxaL d h))))
        · intro v j
          rw [childCount_append]
          have h1 := hccR v j
          have h2 := hccL v j
          by_cases hv : v = p
          · rw [if_pos hv]
            rw [if_neg (show ¬v ∈ dVR by rw [hv]; exact hpdVR)] at h1
            by_cases hj : j = Bitset.Opposite k
            · rw [if_pos ⟨hv, hj⟩] at h2
              rw [if_pos hj, h1, h2, hj]
              simp
            · rw [if_neg (fun hh => hj hh.2),
                if_neg (show ¬v ∈ dVL by rw [hv]; exact hpdVL)] at h2
              rw [if_neg hj, h1, h2]
          · rw [if_neg hv]
            rw [if_neg (fun hh => hv hh.1)] at h2
            by_cases h3 : v ∈ dVR
            · rw [if_pos h3] at h1
              rw [if_neg (fun hin => hdisjRL v hin h3)] at h2
              rw [h1, h2,
                if_pos (List.mem_cons_of_mem _ (List.mem_append_left _ h3))]
              simp
            · rw [if_neg h3] at h1
              by_cases h4 : v ∈ dVL
              · rw [if_pos h4] at h2
                rw [h1, h2,
                  if_pos (List.mem_cons_of_mem _ (List.mem_append_right _ h4))]
                simp
              · rw [if_neg h4] at h2
                rw [h1, h2, if_neg (show ¬v ∈ p :: (dVR ++ dVL) by
                  intro hin
                  rcases List.mem_cons.mp hin with h5 | h5
                  · exact hv h5
                  · rcases List.mem_append.mp h5 with h6 | h6
                    · exact h3 h6
                    · exact h4 h6)]
        · intro v
          rw [parentCount_append]
          have h1 := hpcR v
          have h2 := hpcL v
          by_cases hrootp : isRootVertex dag p
          · obtain ⟨hdVRe, hdLRe⟩ := hRempty hrootp
            rw [hdLRe, parentCount_nil, h2]
            by_cases h4 : v ∈ dVL
            · rw [if_pos h4,
                if_pos ⟨List.mem_cons_of_mem _ (List.mem_append_right _ h4),
                  hLnoroot v h4⟩]
            · rw [if_neg h4, if_neg (show ¬(v ∈ p :: (dVR ++ dVL) ∧
                  ¬isRootVertex dag v) by
                intro hh
                rcases List.mem_cons.mp hh.1 with h5 | h5
                · rw [h5] at hh
                  exact hh.2 hrootp
                · rcases List.mem_append.mp h5 with h6 | h6
                  · rw [hdVRe] at h6
                    simp at h6
                  · exact h4 h6)]
          · rw [if_neg hrootp] at h1
            by_cases hv : v = p
            · rw [if_pos (Or.inl hv)] at h1
              rw [if_neg (show ¬v ∈ dVL by rw [hv]; exact hpdVL)] at h2
              rw [h1, h2, if_pos ⟨by rw [hv]; exact List.mem_cons_self _ _,
                by rw [hv]; exact hrootp⟩]
            · by_cases h3 : v ∈ dVR ∧ ¬isRootVertex dag v
              · rw [if_pos (Or.inr h3)] at h1
                rw [if_neg (fun hin => hdisjRL v hin h3.1)] at h2
                rw [h1, h2,
                  if_pos ⟨List.mem_cons_of_mem _ (List.mem_append_left _ h3.1), h3.2⟩]
              · rw [if_neg (show ¬(v = p ∨ (v ∈ dVR ∧ ¬isRootVertex dag v)) by
                  intro hh
                  rcases hh with hh | hh
                  · exact hv hh
                  · exact h3 hh)] at h1
                by_cases h4 : v ∈ dVL
                · rw [if_pos h4] at h2
                  rw [h1, h2,
                    if_pos ⟨List.mem_cons_of_mem _ (List.mem_append_right _ h4),
                      hLnoroot v h4⟩]
                · rw [if_neg h4] at h2
                  rw [h1, h2, if_neg (show ¬(v ∈ p :: (dVR ++ dVL) ∧
                      ¬isRootVertex dag v) by
                    intro hh
                    rcases List.mem_cons.mp hh.1 with h5 | h5
                    · exact hv h5
                    · rcases List.mem_append.mp h5 with h6 | h6
                      · exact h3 ⟨h6, hh.2⟩
                      · exact h4 h6)]
        · rw [rootsCount_cons dag p (dVR ++ dVL), rootsCount_append, hrootsR, hrootsL]
          by_cases hrootp : isRootVertex dag p
          · rw [if_pos hrootp, if_pos hrootp]
          · rw [if_neg hrootp, if_neg hrootp]
    · -- VisitNode rootward
      intro c k g rng out pre hok
      obtain ⟨⟨hnd, hsub⟩, hfresh, hcnodes, hnrootc, htax⟩ := pre
      simp only [VisitNode] at hok
      cases hr : SampleLeafward fuel ⟨dag, qn, qi⟩ (g.addVertex c) rng c .left with
      | error e =>
        rw [hr] at hok
        exact absurd hok (by simp)
      | ok gr =>
        rw [hr] at hok
        dsimp only at hok
        have hg1v : (g.addVertex c).vertices = g.vertices ++ [c] := by
          rw [addVertex_fresh g c hfresh]
        have hg1l : (g.addVertex c).lines = g.lines := by
          rw [addVertex_fresh g c hfresh]
        have hnd1 : (g.addVertex c).vertices.Nodup := by
          rw [hg1v]
          exact nodup_append_fresh _ _ hnd (List.nodup_singleton c)
            (by intro d hd; simp at hd; rw [hd]; exact hfresh)
        have hsub1 : ∀ v ∈ (g.addVertex c).vertices, v ∈ dag.nodes := by
          intro v hv
          rw [hg1v] at hv
          rcases List.mem_append.mp hv with h | h
          · exact hsub v h
          · simp at h
            rw [h]
            exact hcnodes
        have hcmem1 : c ∈ (g.addVertex c).vertices := by
          rw [hg1v]
          exact List.mem_append_right _ (by simp)
        have hdisjc : Disjoint (dag.cladeTaxa c .left) (dag.cladeTaxa c .right) :=
          wf_disj wf c hcnodes
        have hlsub : dag.cladeTaxa c .left ⊆ taxaOf dag c :=
          Finset.subset_union_left
        have hrsub : dag.cladeTaxa c .right ⊆ taxaOf dag c :=
          Finset.subset_union_right
        by_cases hleaf : isLeafVertex dag c
        · -- a leaf: both descents stop immediately
          have hout1 := sampleLeafward_empty_inv fuel ⟨dag, qn, qi⟩
            (g.addVertex c) rng c .left gr hleaf.1 hr
          rw [hout1] at hok
          dsimp only at hok
          have hout2 := sampleLeafward_empty_inv fuel ⟨dag, qn, qi⟩
            (g.addVertex c) rng c .right out hleaf.2 hok
          rw [hout2]
          dsimp only
          refine ⟨[c], [], ?_, by simp, ?_, ?_, ?_, ?_⟩
          · refine ⟨by rw [hg1v], by rw [hg1l]; simp, ?_, List.nodup_singleton c,
              ?_, by simp⟩
            · intro d hd
              simp at hd
              rw [hd]
              exact hfresh
            · intro d hd
              simp at hd
              rw [hd]
              exact hcnodes
          · intro d hd
            simp at hd
            rw [hd]
          · intro v j
            simp only [childCount_nil]
            by_cases hv : v ∈ [c]
            · rw [if_pos hv]
              simp at hv
              rw [hv]
              cases j with
              | left => simp [indC, hleaf.1]
              | right => simp [indC, hleaf.2]
            · rw [if_neg hv]
          · intro v
            simp only [parentCount_nil]
            rw [if_neg (show ¬(v ∈ [c] ∧ v ≠ c) from
              fun hh => hh.2 (by simpa using hh.1))]
          · simp [hnrootc]
        · -- not a leaf: expand both clades
          have hnsub1 : ¬taxaOf dag c ⊆ dag.cladeTaxa c .left := by
            intro hss
            rcases wf_int wf c hcnodes hleaf hnrootc with ⟨_, hrne⟩
            exact hrne (subset_disjoint_empty (hrsub.trans hss)
              Finset.Subset.rfl hdisjc)
          have hnsub2 : ¬taxaOf dag c ⊆ dag.cladeTaxa c .right := by
            intro hss
            rcases wf_int wf c hcnodes hleaf hnrootc with ⟨hlne, _⟩
            exact hlne (subset_disjoint_empty Finset.Subset.rfl
              (hlsub.trans hss) hdisjc)
          have pre2 : PreL dag (g.addVertex c) c .left := by
            refine ⟨⟨hnd1, hsub1⟩, hcmem1, ?_⟩
            intro v hv
            rw [hg1v] at hv
            rcases List.mem_append.mp hv with h | h
            · rcases htax v h with hns | hroot
              · exact Or.inl (fun hsub2 => hns (hsub2.trans hlsub))
              · exact Or.inr hroot
            · simp at h
              rw [h]
              exact Or.inl hnsub1
          have postL1 := ihL c .left (g.addVertex c) rng gr pre2 hr
          obtain ⟨dV1, dL1, ⟨hver1, hlin1, hfresh1, hnd2, hnodes1, hline1⟩,
            htaxa1, hcc1, hpc1, hroots1⟩ := postL1
          have hcdV1 : c ∉ dV1 := fun hin => hfresh1 c hin hcmem1
          have hndgr : gr.1.vertices.Nodup := by
            rw [hver1]
            exact nodup_append_fresh _ _ hnd1 hnd2 hfresh1
          have hsubgr : ∀ v ∈ gr.1.vertices, v ∈ dag.nodes := by
            intro v hv
            rw [hver1] at hv
            rcases List.mem_append.mp hv with h | h
            · exact hsub1 v h
            · exact hnodes1 v h
          have pre3 : PreL dag gr.1 c .right := by
            refine ⟨⟨hndgr, hsubgr⟩, ?_, ?_⟩
            · rw [hver1]
              exact List.mem_append_left _ hcmem1
            · intro v hv
              rw [hver1] at hv
              rcases List.mem_append.mp hv with h | h
              · rw [hg1v] at h
                rcases List.mem_append.mp h with h2 | h2
                · rcases htax v h2 with hns | hroot
                  · exact Or.inl (fun hsub2 => hns (hsub2.trans hrsub))
                  · exact Or.inr hroot
                · simp at h2
                  rw [h2]
                  exact Or.inl hnsub2
              · refine Or.inl ?_
                intro hsub2
                exact taxa_nonempty dag wf v (hnodes1 v h)
                  (subset_disjoint_empty (htaxa1 v h) hsub2 hdisjc)
          have postL2 := ihL c .right gr.1 gr.2 out pre3 hok
          obtain ⟨dV2, dL2, ⟨hver2, hlin2, hfresh2, hnd3, hnodes2, hline2⟩,
            htaxa2, hcc2, hpc2, hroots2⟩ := postL2
          have hcdV2 : c ∉ dV2 := fun hin => hfresh2 c hin
            (by rw [hver1]; exact List.mem_append_left _ hcmem1)
          have hdisj12 : ∀ d ∈ dV2, d ∉ dV1 := by
            intro d hd hin
            exact hfresh2 d hd (by rw [hver1]; exact List.mem_append_right _ hin)
          refine ⟨c :: (dV1 ++ dV2), dL1 ++ dL2, ?_, List.mem_cons_self _ _,
            ?_, ?_, ?_, ?_⟩
          · refine ⟨?_, ?_, ?_, ?_, ?_, ?_⟩
            · rw [hver2, hver1, hg1v]
              simp [List.append_assoc]
            · rw [hlin2, hlin1, hg1l, List.append_assoc]
            · intro d hd
              rcases List.mem_cons.mp hd with rfl | hd2
              · exact hfresh
              · rcases List.mem_append.mp hd2 with h | h
                · intro hin
                  exact hfresh1 d h (by rw [hg1v]; exact List.mem_append_left _ hin)
                · intro hin
                  exact hfresh2 d h (by
                    rw [hver1, hg1v]
                    exact List.mem_append_left _ (List.mem_append_left _ hin))
            · rw [List.nodup_cons]
              constructor
              · intro hin
                rcases List.mem_append.mp hin with h | h
                · exact hcdV1 h
                · exact hcdV2 h
              · exact nodup_append_fresh _ _ hnd2 hnd3 hdisj12
            · intro d hd
              rcases List.mem_cons.mp hd with rfl | hd2
              · exact hcnodes
              · rcases List.mem_append.mp hd2 with h | h
                · exact hnodes1 d h
                · exact hnodes2 d h
            · intro l hl
              rcases List.mem_append.mp hl with h | h
              · obtain ⟨hc, hp2, hm2⟩ := hline1 l h
                rcases hc with hc | hc
                · exact ⟨Or.inl (List.mem_cons_of_mem _ (List.mem_append_left _ hc)),
                    hp2, hm2⟩
                · simp at hc
              · obtain ⟨hc, hp2, hm2⟩ := hline2 l h
                rcases hc with hc | hc
                · exact ⟨Or.inl (List.mem_cons_of_mem _ (List.mem_append_right _ hc)),
                    hp2, hm2⟩
                · simp at hc
          · intro d hd
            rcases List.mem_cons.mp hd with rfl | hd2
            · exact Finset.Subset.rfl
            · rcases List.mem_append.mp hd2 with h | h
              · exact (htaxa1 d h).trans hlsub
              · exact (htaxa2 d h).trans hrsub
          · intro v j
            rw [childCount_append]
            have h1 := hcc1 v j
            have h2 := hcc2 v j
            by_cases hv : v = c
            · rw [if_pos (show v ∈ c :: (dV1 ++ dV2) by rw [hv]; simp)]
              cases j with
              | left =>
                rw [if_pos ⟨hv, rfl⟩] at h1
                rw [if_neg (fun hh => SubsplitClade.noConfusion hh.2)] at h2
                rw [if_neg (show ¬v ∈ dV2 by rw [hv]; exact hcdV2)] at h2
                rw [h1, h2, hv]
                simp
              | right =>
                rw [if_neg (fun hh => SubsplitClade.noConfusion hh.2)] at h1
                rw [if_neg (show ¬v ∈ dV1 by rw [hv]; exact hcdV1)] at h1
                rw [if_pos ⟨hv, rfl⟩] at h2
                rw [h1, h2, hv]
                simp
            · rw [if_neg (fun hh => hv hh.1)] at h1
              rw [if_neg (fun hh => hv hh.1)] at h2
              by_cases h3 : v ∈ dV1
              · rw [if_pos h3] at h1
                rw [if_neg (fun hin => hdisj12 v hin h3)] at h2
                rw [h1, h2,
                  if_pos (List.mem_cons_of_mem _ (List.mem_append_left _ h3))]
                simp
              · rw [if_neg h3] at h1
                by_cases h4 : v ∈ dV2
                · rw [if_pos h4] at h2
                  rw [h1, h2,
                    if_pos (List.mem_cons_of_mem _ (List.mem_append_right _ h4))]
                  simp
                · rw [if_neg h4] at h2
                  rw [h1, h2, if_neg (show ¬v ∈ c :: (dV1 ++ dV2) by
                    intro hin
                    rcases List.mem_cons.mp hin with h5 | h5
                    · exact hv h5
                    · rcases List.mem_append.mp h5 with h6 | h6
                      · exact h3 h6
                      · exact h4 h6)]
          · intro v
            rw [parentCount_append]
            have h1 := hpc1 v
            have h2 := hpc2 v
            by_cases hv : v = c
            · rw [if_neg (show ¬v ∈ dV1 by rw [hv]; exact hcdV1)] at h1
              rw [if_neg (show ¬v ∈ dV2 by rw [hv]; exact hcdV2)] at h2
              rw [h1, h2, if_neg (show ¬(v ∈ c :: (dV1 ++ dV2) ∧ v ≠ c) from
                fun hh => hh.2 hv)]
            · by_cases h3 : v ∈ dV1
              · rw [if_pos h3] at h1
                rw [if_neg (fun hin => hdisj12 v hin h3)] at h2
                rw [h1, h2, if_pos ⟨List.mem_cons_of_mem _
                  (List.mem_append_left _ h3), hv⟩]
              · rw [if_neg h3] at h1
                by_cases h4 : v ∈ dV2
                · rw [if_pos h4] at h2
                  rw [h1, h2, if_pos ⟨List.mem_cons_of_mem _
                    (List.mem_append_right _ h4), hv⟩]
                · rw [if_neg h4] at h2
                  rw [h1, h2, if_neg (show ¬(v ∈ c :: (dV1 ++ dV2) ∧ v ≠ c) by
                    intro hh
                    rcases List.mem_cons.mp hh.1 with h5 | h5
                    · exact hv h5
                    · rcases List.mem_append.mp h5 with h6 | h6
                      · exact h3 h6
                      · exact h4 h6)]
          · rw [rootsCount_cons dag c (dV1 ++ dV2), rootsCount_append,
              hroots1, hroots2, if_neg hnrootc]

/-- A node either fails to fit inside its own clade `k`, or is a root, or
has nothing to expand on `k`: the precondition `SampleLeafward` needs at
its own node always holds. -/
theorem self_clade_clause (dag : SubsplitDAG) (wf : WF dag) (n : Nat)
    (hn : n ∈ dag.nodes) (k : SubsplitClade) :
    ¬taxaOf dag n ⊆ dag.cladeTaxa n k ∨ isRootVertex dag n ∨
      dag.leafward n k = [] := by
  by_cases hroot : isRootVertex dag n
  · exact Or.inr (Or.inl hroot)
  by_cases hleaf : isLeafVertex dag n
  · cases k with
    | left => exact Or.inr (Or.inr hleaf.1)
    | right => exact Or.inr (Or.inr hleaf.2)
  · refine Or.inl ?_
    intro hss
    have hint := wf_int wf n hn hleaf hroot
    have hdisj := wf_disj wf n hn
    have hdisjk : Disjoint (dag.cladeTaxa n k)
        (dag.cladeTaxa n (Bitset.Opposite k)) := by
      cases k
      · exact hdisj
      · exact hdisj.symm
    have hoppne : dag.cladeTaxa n (Bitset.Opposite k) ≠ ∅ := by
      cases k with
      | left => exact hint.2
      | right => exact hint.1
    have hoppsub : dag.cladeTaxa n (Bitset.Opposite k) ⊆ taxaOf dag n := by
      rw [taxaOf_clade_union dag n (Bitset.Opposite k)]
      exact Finset.subset_union_left
    exact hoppne (subset_disjoint_empty (hoppsub.trans hss)
      Finset.Subset.rfl hdisjk)

/-- Contract for `SampleLeafward` with the self-clause weakened so it also
covers leaves and clade-empty roots (where the call stops at once). -/
theorem contract_leafward (dag : SubsplitDAG) (qn qi : Nat → ℚ) (wf : WF dag)
    (fuel n : Nat) (k : SubsplitClade) (g : SampleGraph) (rng : MersenneTwister)
    (out : SampleGraph × MersenneTwister)
    (hnd : g.vertices.Nodup) (hsub : ∀ v ∈ g.vertices, v ∈ dag.nodes)
    (hm : n ∈ g.vertices)
    (hothers : ∀ v ∈ g.vertices, v ≠ n →
       ¬taxaOf dag v ⊆ dag.cladeTaxa n k ∨ isRootVertex dag v)
    (hok : SampleLeafward fuel ⟨dag, qn, qi⟩ g rng n k = .ok out) :
    PostL dag g n k out.1 := by
  by_cases he : dag.leafward n k = []
  · rw [sampleLeafward_empty_inv fuel _ g rng n k out he hok]
    exact PostL_empty dag g n k he
  · apply (traversal_contract dag qn qi wf fuel).2.1 n k g rng out
      ⟨⟨hnd, hsub⟩, hm, ?_⟩ hok
    intro v hv
    by_cases hvn : v = n
    · rw [hvn]
      rcases self_clade_clause dag wf n (hsub n hm) k with h | h | h
      · exact Or.inl h
      · exact Or.inr h
      · exact absurd h he
    · exact hothers v hv hvn

theorem countP_one_unique {α : Type _} (l : List α) (p : α → Bool)
    (h : l.countP p = 1) : ∃ a, (a ∈ l ∧ p a) ∧ ∀ b, b ∈ l ∧ p b → b = a := by
  induction l with
  | nil => simp at h
  | cons x t ih =>
    rw [List.countP_cons] at h
    by_cases hx : p x
    · have ht : t.countP p = 0 := by
        rw [if_pos hx] at h
        omega
      refine ⟨x, ⟨by simp, hx⟩, ?_⟩
      intro b hb
      rcases List.mem_cons.mp hb.1 with h2 | h2
      · exact h2
      · exact absurd hb.2 (by
          have := (List.countP_eq_zero.mp ht) b h2
          simpa using this)
    · have ht : t.countP p = 1 := by
        rw [if_neg hx] at h
        omega
      obtain ⟨a, ⟨ha1, ha2⟩, ha3⟩ := ih ht
      refine ⟨a, ⟨List.mem_cons_of_mem _ ha1, ha2⟩, ?_⟩
      intro b hb
      rcases List.mem_cons.mp hb.1 with h2 | h2
      · rw [h2] at hb
        exact absurd hb.2 (by simpa using hx)
      · exact ha3 b ⟨h2, hb.2⟩

theorem graphNeighbors_length (g : SampleGraph) (v : Nat) (k : SubsplitClade) :
    (graphNeighbors g v k).length = childCount g.lines v k := by
  unfold graphNeighbors childCount
  rw [List.length_map, List.countP_eq_length_filter]

theorem unique_child (dag : SubsplitDAG) (wf : WF dag) (g : SampleGraph)
    (hlines : ∀ l ∈ g.lines, l.child ∈ g.vertices ∧ l.parent ∈ dag.nodes ∧
       (l.child, l.edge) ∈ dag.leafward l.parent l.clade)
    (v : Nat) (k : SubsplitClade) (hone : childCount g.lines v k = 1) :
    ∃ c, graphNeighbors g v k = [c] ∧ c ∈ g.vertices ∧
      taxaOf dag c = dag.cladeTaxa v k := by
  have hlen : (graphNeighbors g v k).length = 1 := by
    rw [graphNeighbors_length, hone]
  obtain ⟨c, hc⟩ := List.length_eq_one.mp hlen
  have hcmem : c ∈ graphNeighbors g v k := by
    rw [hc]
    simp
  unfold graphNeighbors at hcmem
  obtain ⟨l0, hl0f, hl0c⟩ := List.mem_map.mp hcmem
  obtain ⟨hl0m, hl0p⟩ := List.mem_filter.mp hl0f
  have hl0p2 : l0.parent = v ∧ l0.clade = k := by simpa using hl0p
  obtain ⟨hchild, hpn, hmem2⟩ := hlines l0 hl0m
  refine ⟨c, hc, by rw [← hl0c]; exact hchild, ?_⟩
  have := (wf_lw wf l0.parent hpn l0.clade (l0.child, l0.edge) hmem2).2.2.1
  rw [hl0p2.1, hl0p2.2, hl0c] at this
  exact this

/-- A successful traversal phase establishes the structural invariants of
the finished subgraph: composition of the rootward contract at the focus
node with the two leafward contracts on its clades. -/
theorem runTraversal_final (dag : SubsplitDAG) (qn qi : Nat → ℚ) (wf : WF dag)
    (fuel node : Nat) (hnode : node ∈ dag.nodes) (rng : MersenneTwister)
    (out : SampleGraph × MersenneTwister)
    (h : RunTraversal fuel ⟨dag, qn, qi⟩ node rng = .ok out) :
    FinalInv dag out.1 := by
  unfold RunTraversal at h
  dsimp only at h
  have hg0 : (SampleGraph.mk [] []).addVertex node = ⟨[node], []⟩ := by
    simp [SampleGraph.addVertex]
  rw [hg0] at h
  cases h1 : SampleRootward fuel ⟨dag, qn, qi⟩ ⟨[node], []⟩ rng node with
  | error e => rw [h1] at h; simp at h
  | ok gr1 =>
  rw [h1] at h
  dsimp only at h
  cases h2 : SampleLeafward fuel ⟨dag, qn, qi⟩ gr1.1 gr1.2 node .left with
  | error e => rw [h2] at h; simp at h
  | ok gr2 =>
  rw [h2] at h
  dsimp only at h
  have preR : PreR dag ⟨[node], []⟩ node := by
    refine ⟨⟨by simp, ?_⟩, by simp, ?_, ?_⟩
    · intro v hv
      have : v = node := by simpa using hv
      rw [this]
      exact hnode
    · intro v hv
      have : v = node := by simpa using hv
      rw [this]
    · intro v hv
      exact Or.inl (by simpa using hv)
  have postR := (traversal_contract dag qn qi wf fuel).1 node ⟨[node], []⟩ rng gr1
    preR h1
  obtain ⟨dVR, dLR, ⟨hVeq, hLeq, hfreshR, hndR, hsubR, hlinesR⟩, hRroot,
    hclassR, hccR, hpcR, hrootsR⟩ := postR
  have hndgr1 : gr1.1.vertices.Nodup := by
    rw [hVeq]
    exact nodup_append_fresh _ _ (by simp) hndR hfreshR
  have hsubgr1 : ∀ v ∈ gr1.1.vertices, v ∈ dag.nodes := by
    intro v hv
    rw [hVeq] at hv
    rcases List.mem_append.mp hv with h' | h'
    · have : v = node := by simpa using h'
      rw [this]
      exact hnode
    · exact hsubR v h'
  have hmgr1 : node ∈ gr1.1.vertices := by
    rw [hVeq]
    exact List.mem_append_left _ (by simp)
  have hcladesubL : dag.cladeTaxa node .left ⊆ taxaOf dag node := by
    rw [taxaOf_clade_union dag node .left]
    exact Finset.subset_union_left
  have hcladesubR : dag.cladeTaxa node .right ⊆ taxaOf dag node := by
    rw [taxaOf_clade_union dag node .left]
    exact Finset.subset_union_right
  have hclassAbove : ∀ v ∈ dVR, ∀ k : SubsplitClade,
      ¬taxaOf dag v ⊆ dag.cladeTaxa node k ∨ isRootVertex dag v := by
    intro v hv k
    have hcs : dag.cladeTaxa node k ⊆ taxaOf dag node := by
      cases k
      · exact hcladesubL
      · exact hcladesubR
    rcases hclassR v hv with hc | hc | hc
    · refine Or.inl ?_
      intro hss
      exact (Finset.ssubset_def.mp hc).2 (hss.trans hcs)
    · refine Or.inl ?_
      intro hss
      exact taxa_nonempty dag wf v (hsubR v hv)
        (subset_disjoint_empty Finset.Subset.rfl (hss.trans hcs) hc)
    · exact Or.inr hc
  have hoth1 : ∀ v ∈ gr1.1.vertices, v ≠ node →
      ¬taxaOf dag v ⊆ dag.cladeTaxa node .left ∨ isRootVertex dag v := by
    intro v hv hvn
    rw [hVeq] at hv
    rcases List.mem_append.mp hv with h' | h'
    · exact absurd (by simpa using h') hvn
    · exact hclassAbove v h' .left
  have postL1 := contract_leafward dag qn qi wf fuel node .left gr1.1 gr1.2 gr2
    hndgr1 hsubgr1 hmgr1 hoth1 h2
  obtain ⟨dVL1, dLL1, ⟨hVeq1, hLeq1, hfresh1, hnd1, hsub1, hlines1⟩, htax1,
    hcc1, hpc1, hroots1⟩ := postL1
  have hndgr2 : gr2.1.vertices.Nodup := by
    rw [hVeq1]
    exact nodup_append_fresh _ _ hndgr1 hnd1 hfresh1
  have hsubgr2 : ∀ v ∈ gr2.1.vertices, v ∈ dag.nodes := by
    intro v hv
    rw [hVeq1] at hv
    rcases List.mem_append.mp hv with h' | h'
    · exact hsubgr1 v h'
    · exact hsub1 v h'
  have hmgr2 : node ∈ gr2.1.vertices := by
    rw [hVeq1]
    exact List.mem_append_left _ hmgr1
  have hoth2 : ∀ v ∈ gr2.1.vertices, v ≠ node →
      ¬taxaOf dag v ⊆ dag.cladeTaxa node .right ∨ isRootVertex dag v := by
    intro v hv hvn
    rw [hVeq1] at hv
    rcases List.mem_append.mp hv with h' | h'
    · rw [hVeq] at h'
      rcases List.mem_append.mp h' with h'' | h''
      · exact absurd (by simpa using h'') hvn
      · exact hclassAbove v h'' .right
    · refine Or.inl ?_
      have := not_subset_clade_of_subset_taxa dag wf v (hsub1 v h') node .left
        (wf_disj wf node hnode) (htax1 v h')
      simpa using this
  have postL2 := contract_leafward dag qn qi wf fuel node .right gr2.1 gr2.2 out
    hndgr2 hsubgr2 hmgr2 hoth2 h
  obtain ⟨dVL2, dLL2, ⟨hVeq2, hLeq2, hfresh2, hnd2, hsub2, hlines2⟩, htax2,
    hcc2, hpc2, hroots2⟩ := postL2
  have hndAll : out.1.vertices.Nodup := by
    rw [hVeq2]
    exact nodup_append_fresh _ _ hndgr2 hnd2 hfresh2
  have hsubAll : ∀ v ∈ out.1.vertices, v ∈ dag.nodes := by
    intro v hv
    rw [hVeq2] at hv
    rcases List.mem_append.mp hv with h' | h'
    · exact hsubgr2 v h'
    · exact hsub2 v h'
  have hmemAll : ∀ v, v ∈ out.1.vertices ↔
      v = node ∨ v ∈ dVR ∨ v ∈ dVL1 ∨ v ∈ dVL2 := by
    intro v
    rw [hVeq2, hVeq1, hVeq]
    simp [or_assoc]
  have hnotR : node ∉ dVR := by
    intro hm
    exact hfreshR node hm (by simp)
  have hnot1 : node ∉ dVL1 := by
    intro hm
    exact hfresh1 node hm hmgr1
  have hnot2 : node ∉ dVL2 := by
    intro hm
    exact hfresh2 node hm hmgr2
  have hR1 : ∀ d ∈ dVL1, d ∉ dVR := by
    intro d hd hm
    refine hfresh1 d hd ?_
    rw [hVeq]
    exact List.mem_append_right _ hm
  have hR2 : ∀ d ∈ dVL2, d ∉ dVR := by
    intro d hd hm
    refine hfresh2 d hd ?_
    rw [hVeq1, hVeq]
    exact List.mem_append_left _ (List.mem_append_right _ hm)
  have h12 : ∀ d ∈ dVL2, d ∉ dVL1 := by
    intro d hd hm
    refine hfresh2 d hd ?_
    rw [hVeq1]
    exact List.mem_append_right _ hm
  refine ⟨hndAll, hsubAll, ?_, ?_, ?_, ?_⟩
  · intro v hv j
    rw [hLeq2, hLeq1, hLeq, childCount_append, childCount_append,
      childCount_append]
    have hz : childCount (SampleGraph.mk [node] []).lines v j = 0 := rfl
    rw [hz, hccR v j, hcc1 v j, hcc2 v j]
    rcases (hmemAll v).mp hv with rfl | hv' | hv' | hv'
    · cases j <;> simp [hnotR, hnot1, hnot2]
    · have hvn : v ≠ node := fun e => hnotR (e ▸ hv')
      have h1' : v ∉ dVL1 := fun hm => hR1 v hm hv'
      have h2' : v ∉ dVL2 := fun hm => hR2 v hm hv'
      simp [hv', hvn, h1', h2']
    · have hvn : v ≠ node := fun e => hnot1 (e ▸ hv')
      have hvR : v ∉ dVR := hR1 v hv'
      have h2' : v ∉ dVL2 := fun hm => h12 v hm hv'
      simp [hv', hvn, hvR, h2']
    · have hvn : v ≠ node := fun e => hnot2 (e ▸ hv')
      have hvR : v ∉ dVR := hR2 v hv'
      have h1' : v ∉ dVL1 := h12 v hv'
      simp [hv', hvn, hvR, h1']
  · intro l hl
    rw [hLeq2] at hl
    rcases List.mem_append.mp hl with hl | hl
    · rw [hLeq1] at hl
      rcases List.mem_append.mp hl with hl | hl
      · rw [hLeq] at hl
        rcases List.mem_append.mp hl with hl | hl
        · exact absurd hl (by simp)
        · obtain ⟨hc, hp, he⟩ := hlinesR l hl
          refine ⟨?_, hp, he⟩
          rcases hc with hc | hc
          · exact (hmemAll _).mpr (Or.inr (Or.inl hc))
          · exact (hmemAll _).mpr (Or.inl (by simpa using hc))
      · obtain ⟨hc, hp, he⟩ := hlines1 l hl
        refine ⟨?_, hp, he⟩
        rcases hc with hc | hc
        · exact (hmemAll _).mpr (Or.inr (Or.inr (Or.inl hc)))
        · exact absurd hc (by simp)
    · obtain ⟨hc, hp, he⟩ := hlines2 l hl
      refine ⟨?_, hp, he⟩
      rcases hc with hc | hc
      · exact (hmemAll _).mpr (Or.inr (Or.inr (Or.inr hc)))
      · exact absurd hc (by simp)
  · intro v hv
    rw [hLeq2, hLeq1, hLeq, parentCount_append, parentCount_append,
      parentCount_append]
    have hz : parentCount (SampleGraph.mk [node] []).lines v = 0 := rfl
    rw [hz, hpcR v, hpc1 v, hpc2 v]
    rcases (hmemAll v).mp hv with rfl | hv' | hv' | hv'
    · by_cases hrootn : isRootVertex dag v <;>
        simp [hrootn, hnot1, hnot2]
    · have hrootn : ¬isRootVertex dag node := by
        intro hr
        rw [(hRroot hr).1] at hv'
        exact absurd hv' (by simp)
      have hvn : v ≠ node := fun e => hnotR (e ▸ hv')
      have h1' : v ∉ dVL1 := fun hm => hR1 v hm hv'
      have h2' : v ∉ dVL2 := fun hm => hR2 v hm hv'
      by_cases hrv : isRootVertex dag v <;>
        simp [hrootn, hvn, h1', h2', hrv, hv']
    · have hvn : v ≠ node := fun e => hnot1 (e ▸ hv')
      have hvR : v ∉ dVR := hR1 v hv'
      have h2' : v ∉ dVL2 := fun hm => h12 v hm hv'
      have hrv : ¬isRootVertex dag v :=
        (roots_zero_iff dag dVL1).mp hroots1 v hv'
      by_cases hrootn : isRootVertex dag node <;>
        simp [hrootn, hvn, hvR, h2', hv', hrv]
    · have hvn : v ≠ node := fun e => hnot2 (e ▸ hv')
      have hvR : v ∉ dVR := hR2 v hv'
      have h1' : v ∉ dVL1 := h12 v hv'
      have hrv : ¬isRootVertex dag v :=
        (roots_zero_iff dag dVL2).mp hroots2 v hv'
      by_cases hrootn : isRootVertex dag node <;>
        simp [hrootn, hvn, hvR, h1', hv', hrv]
  · rw [hVeq2, hVeq1, hVeq, rootsCount_append, rootsCount_append,
      rootsCount_append, hrootsR, hroots1, hroots2]
    have h0 : (SampleGraph.mk [node] []).vertices.countP
        (fun v => decide (isRootVertex dag v)) =
        if isRootVertex dag node then 1 else 0 := by
      by_cases hr : isRootVertex dag node <;>
        simp [List.countP_cons, hr]
    rw [h0]
    by_cases hr : isRootVertex dag node <;> simp [hr]

/-- Under the finished-subgraph invariants, `BuildTree` on any visited
vertex yields a tree whose leaf list is duplicate-free and covers exactly
the taxa of that vertex's subsplit. -/
theorem buildTree_leaves (dag : SubsplitDAG) (wf : WF dag) (g : SampleGraph)
    (hfin : FinalInv dag g) : ∀ fuel v t, v ∈ g.vertices →
    BuildTree fuel dag g v = .ok t →
    t.leaves.Nodup ∧ t.leaves.toFinset = taxaOf dag v := by
  obtain ⟨hnd, hnodes, hcc, hlines, hpc, hroots⟩ := hfin
  intro fuel
  induction fuel with
  | zero =>
    intro v t hv h
    simp [BuildTree] at h
  | succ fuel ih =>
    intro v t hv h
    have hvnode : v ∈ dag.nodes := hnodes v hv
    have hgetZ : ∀ j : SubsplitClade, dag.leafward v j = [] →
        graphNeighbors g v j = [] := by
      intro j hj
      have h0 : childCount g.lines v j = 0 := by
        rw [hcc v hv j]
        simp [indC, hj]
      have hlen := graphNeighbors_length g v j
      rw [h0] at hlen
      exact List.length_eq_zero.mp hlen
    have hgetS : ∀ j : SubsplitClade, dag.leafward v j ≠ [] →
        ∃ c, graphNeighbors g v j = [c] ∧ c ∈ g.vertices ∧
          taxaOf dag c = dag.cladeTaxa v j := by
      intro j hj
      have h1 : childCount g.lines v j = 1 := by
        rw [hcc v hv j]
        simp [indC, hj]
      exact unique_child dag wf g hlines v j h1
    by_cases hleaf : isLeafVertex dag v
    · have hn1 : graphNeighbors g v .left = [] := hgetZ .left hleaf.1
      have hn2 : graphNeighbors g v .right = [] := hgetZ .right hleaf.2
      unfold BuildTree at h
      rw [hn1, hn2] at h
      simp [hleaf] at h
      rw [← h]
      refine ⟨by simp [SNode.leaves], ?_⟩
      rw [wf_leaf wf v hvnode hleaf]
      simp [SNode.leaves]
    · by_cases hre : dag.leafward v .right = []
      · -- the right clade is empty, so the vertex must be the root
        have hrt : dag.cladeTaxa v .right = ∅ :=
          (wf_ne wf v hvnode hleaf .right).mp hre
        have hle : dag.leafward v .left ≠ [] := by
          intro h0
          exact hleaf ⟨h0, hre⟩
        have hroot : isRootVertex dag v := by
          by_contra hnr
          exact (wf_int wf v hvnode hleaf hnr).2 hrt
        obtain ⟨c, hn1, hcv, hct⟩ := hgetS .left hle
        have hn2 : graphNeighbors g v .right = [] := hgetZ .right hre
        unfold BuildTree at h
        rw [hn1, hn2] at h
        simp only [List.head?] at h
        rw [if_neg hleaf, if_pos hroot] at h
        cases hb : BuildTree fuel dag g c with
        | error e =>
          rw [hb] at h
          simp at h
        | ok lt =>
          rw [hb] at h
          simp at h
          obtain ⟨ihl1, ihl2⟩ := ih c lt hcv hb
          rw [← h]
          refine ⟨by simpa [SNode.leaves] using ihl1, ?_⟩
          have htv : taxaOf dag v = dag.cladeTaxa v .left := by
            unfold taxaOf
            rw [hrt, Finset.union_empty]
          rw [htv, ← hct, ← ihl2]
          simp [SNode.leaves]
      · obtain ⟨c2, hn2, hc2v, hc2t⟩ := hgetS .right hre
        by_cases hlm : dag.leafward v .left = []
        · -- only a right child was discovered: BuildTree cannot succeed
          have hn1 : graphNeighbors g v .left = [] := hgetZ .left hlm
          unfold BuildTree at h
          rw [hn1, hn2] at h
          simp only [List.head?] at h
          rw [if_neg hleaf] at h
          by_cases hroot : isRootVertex dag v
          · rw [if_pos hroot] at h
            simp at h
          · rw [if_neg hroot] at h
            simp at h
        · obtain ⟨c1, hn1, hc1v, hc1t⟩ := hgetS .left hlm
          unfold BuildTree at h
          rw [hn1, hn2] at h
          simp only [List.head?] at h
          cases hb1 : BuildTree fuel dag g c1 with
          | error e =>
            rw [hb1] at h
            simp at h
          | ok lt =>
            cases hb2 : BuildTree fuel dag g c2 with
            | error e =>
              rw [hb1, hb2] at h
              simp at h
            | ok rt =>
              rw [hb1, hb2] at h
              simp at h
              obtain ⟨ihl1, ihl2⟩ := ih c1 lt hc1v hb1
              obtain ⟨ihr1, ihr2⟩ := ih c2 rt hc2v hb2
              rw [← h]
              have hdisjL : lt.leaves.Disjoint rt.leaves := by
                intro a ha hb
                have ha' : a ∈ lt.leaves.toFinset := List.mem_toFinset.mpr ha
                have hb' : a ∈ rt.leaves.toFinset := List.mem_toFinset.mpr hb
                rw [ihl2, hc1t] at ha'
                rw [ihr2, hc2t] at hb'
                exact Finset.disjoint_left.mp (wf_disj wf v hvnode) ha' hb'
              refine ⟨?_, ?_⟩
              · simpa [SNode.leaves] using ihl1.append ihr1 hdisjL
              · show (lt.leaves ++ rt.leaves).toFinset = taxaOf dag v
                rw [List.toFinset_append, ihl2, ihr2, hc1t, hc2t]
                rfl

/-! Claim C3: the finished-subgraph invariant. -/

/-- C3: for every completed sampling traversal (the subgraph accumulated
by a successful run of `SampleRootward`/`SampleLeafward` starting from
the focus node, over a well-formed DAG), the finished subgraph satisfies:
every internal non-root vertex has exactly two chosen child edges (one
per clade), every leaf vertex has zero chosen child edges, and exactly
one vertex is the root. -/
theorem finished_subgraph_invariant (dag : SubsplitDAG) (qn qi : Nat → ℚ)
    (wf : WF dag) (fuel node : Nat) (hnode : node ∈ dag.nodes)
    (rng : MersenneTwister) (out : SampleGraph × MersenneTwister)
    (h : RunTraversal fuel ⟨dag, qn, qi⟩ node rng = .ok out) :
    (∀ v ∈ out.1.vertices, ¬isLeafVertex dag v → ¬isRootVertex dag v →
       childCount out.1.lines v .left = 1 ∧ childCount out.1.lines v .right = 1) ∧
    (∀ v ∈ out.1.vertices, isLeafVertex dag v → ∀ j,
       childCount out.1.lines v j = 0) ∧
    (∃! r, r ∈ out.1.vertices ∧ isRootVertex dag r) := by
  obtain ⟨hnd, hnodes, hcc, hlines, hpc, hroots⟩ :=
    runTraversal_final dag qn qi wf fuel node hnode rng out h
  refine ⟨?_, ?_, ?_⟩
  · intro v hv hleaf hroot
    have hint := wf_int wf v (hnodes v hv) hleaf hroot
    constructor
    · rw [hcc v hv .left]
      have hl : dag.leafward v .left ≠ [] := by
        intro h0
        exact hint.1 ((wf_ne wf v (hnodes v hv) hleaf .left).mp h0)
      simp [indC, hl]
    · rw [hcc v hv .right]
      have hr : dag.leafward v .right ≠ [] := by
        intro h0
        exact hint.2 ((wf_ne wf v (hnodes v hv) hleaf .right).mp h0)
      simp [indC, hr]
  · intro v hv hleaf j
    rw [hcc v hv j]
    cases j
    · simp [indC, hleaf.1]
    · simp [indC, hleaf.2]
  · obtain ⟨r, ⟨hr1, hr2⟩, hr3⟩ := countP_one_unique _ _ hroots
    refine ⟨r, ⟨hr1, by simpa using hr2⟩, ?_⟩
    intro s hs
    exact hr3 s ⟨hs.1, by simpa using hs.2⟩

/-- C3 (witness): the finished-subgraph invariant at the concrete
subgraph the example traversal accumulates. -/
theorem finished_subgraph_invariant_witness :
    (∀ v ∈ gEx.vertices, ¬isLeafVertex dagEx v → ¬isRootVertex dagEx v →
       childCount gEx.lines v .left = 1 ∧ childCount gEx.lines v .right = 1) ∧
    (∀ v ∈ gEx.vertices, isLeafVertex dagEx v → ∀ j,
       childCount gEx.lines v j = 0) ∧
    (∃! r, r ∈ gEx.vertices ∧ isRootVertex dagEx r) := by
  exact finished_subgraph_invariant dagEx unitProbs unitProbs (by decide) 12 3
    (by decide) rng0 (gEx, rngEx) (by decide)

/-! Claim C1: the sampled tree's leaf set is the taxon universe. -/

/-- C1: for every successful `Sample` call satisfying the preconditions
(the focus node belongs to the well-formed DAG and both probability
tables are non-negative), the returned tree's leaf set equals the taxon
universe exactly: every taxon appears as a leaf exactly once, with no
omissions and no duplicates. -/
theorem sampled_tree_covers_taxa (dag : SubsplitDAG) (qn qi : Nat → ℚ)
    (wf : WF dag) (fuel node : Nat) (hnode : node ∈ dag.nodes)
    (_hqn : ∀ e, 0 ≤ qn e) (_hqi : ∀ e, 0 ≤ qi e)
    (rng : MersenneTwister) (t : SNode) (rng' : MersenneTwister)
    (h : Sample fuel node dag qn qi rng = .ok (t, rng')) :
    t.leaves.Nodup ∧ t.leaves.toFinset = dag.allTaxa := by
  unfold Sample at h
  cases htr : RunTraversal fuel ⟨dag, qn, qi⟩ node rng with
  | error e =>
    rw [htr] at h
    simp at h
  | ok gr =>
    rw [htr] at h
    dsimp only [ConnectAllVertices] at h
    have hfin := runTraversal_final dag qn qi wf fuel node hnode rng gr htr
    cases hf : FindRoot gr.1 with
    | none =>
      rw [hf] at h
      simp at h
    | some root =>
      rw [hf] at h
      dsimp only at h
      cases hb : BuildTree fuel dag gr.1 root with
      | error e =>
        rw [hb] at h
        simp at h
      | ok t0 =>
        rw [hb] at h
        simp at h
        obtain ⟨ht, _⟩ := h
        have hrootmem : root ∈ gr.1.vertices := by
          unfold FindRoot at hf
          exact List.mem_of_find?_eq_some hf
        have hrootnode : root ∈ dag.nodes := hfin.2.1 root hrootmem
        have hrootcl : isRootVertex dag root := by
          unfold FindRoot at hf
          have hpred := List.find?_some hf
          have hpc0 : parentCount gr.1.lines root = 0 := by
            unfold parentCount
            rw [List.countP_eq_zero]
            intro l hl
            have h1 := List.all_eq_true.mp hpred l hl
            simp at h1
            simpa using h1
          have hthis := hfin.2.2.2.2.1 root hrootmem
          rw [hpc0] at hthis
          by_contra hnr
          rw [if_neg hnr] at hthis
          omega
        have hbl := buildTree_leaves dag wf gr.1 hfin fuel root t0 hrootmem hb
        rw [← ht]
        refine ⟨hbl.1, ?_⟩
        rw [hbl.2]
        exact wf_root wf root hrootnode hrootcl

/-- C1 (witness): the tree sampled on the concrete example run covers
the three-taxon universe exactly once each. -/
theorem sampled_tree_covers_taxa_witness :
    tEx.leaves.Nodup ∧ tEx.leaves.toFinset = dagEx.allTaxa := by
  exact sampled_tree_covers_taxa dagEx unitProbs unitProbs (by decide) 12 3
    (by decide) (fun e => by norm_num [unitProbs])
    (fun e => by norm_num [unitProbs]) rng0 tEx rngEx (by decide)

end BitoTS
